import Mathlib

/-!
Verification development for the `sccs-code` transaction-simulator repository.

The Python sources are shallowly embedded:
* `simulator/types.py` : `TransactionType`, `Transaction`;
* `simulator/db.py`    : `BasePartition` (shared lifecycle), `ReferencePartition`,
  `EagerPartition`, `DeferredPartition`;
* `main.py`            : the partition-routing expression of `run_on_partitions`.

Python dictionaries are modelled as insertion-ordered association lists
(Python 3.7+ dicts preserve insertion order), Python sets as duplicate-free
lists where insertion appends, simulated times as rationals, and store values
as integers.  All definitions are executable so that concrete runs evaluate
by `decide` / `rfl`.

CPython iterates a `set` in hash order, which for `Transaction` (a frozen
dataclass hashing a string-valued enum field) is seed-dependent and unrelated
to insertion order.  Where that order is behaviourally observable — the
phase-1 scan of `set(self._pending)` in `DeferredPartition._start_transactions`
— the realised iteration order is therefore an explicit parameter
(`deferredStartTransactionsOrd` / `deferredClockOrd`, faithful for any
permutation of the snapshot); the fixed-order instances (`deferredClock`,
`runD`, `eagerClock`) scan in insertion order and are used only where the
property at issue is insensitive to the order or where the chosen order is
stated as a hypothesis.
-/

namespace SCCS

/-- `TransactionType` from `simulator/types.py` (GET / OVERWRITE / INCREASE). -/
inductive TransactionType where
  | GET
  | OVERWRITE
  | INCREASE
deriving DecidableEq

/-- `Transaction` from `simulator/types.py`: frozen dataclass, so equality and
hashing are field-based. -/
structure Transaction where
  id : Nat
  type : TransactionType
  submit_time : ℚ
  execution_time : ℚ
  key : Nat
deriving DecidableEq

/-! ### Finite maps as insertion-ordered association lists -/

/-- Lookup in an association list (Python `d[k]` / `k in d`). -/
def look {α : Type} : List (Transaction × α) → Transaction → Option α
  | [], _ => none
  | (k, w) :: rest, t => if k = t then some w else look rest t

/-- Lookup with a default (totalisation of Python `d[k]` at call sites where
the key is always present, and of `defaultdict` access). -/
def lookD {α : Type} (m : List (Transaction × α)) (t : Transaction) (d : α) : α :=
  (look m t).getD d

/-- Map update `d[k] = v`: replaces in place if the key is present (Python
dicts keep the original position), otherwise appends. -/
def upd {α : Type} : List (Transaction × α) → Transaction → α → List (Transaction × α)
  | [], t, v => [(t, v)]
  | (k, w) :: rest, t, v => if k = t then (t, v) :: rest else (k, w) :: upd rest t v

/-- Key deletion `del d[k]`. -/
def delA {α : Type} (m : List (Transaction × α)) (t : Transaction) : List (Transaction × α) :=
  m.filter (fun p => decide (p.1 ≠ t))

/-- The key list of a map (`d.keys()`, in insertion order). -/
def dom {α : Type} (m : List (Transaction × α)) : List Transaction :=
  m.map (·.1)

/-! ### Sets as duplicate-free lists -/

/-- Python `s.add(t)`: no-op if present, else append. -/
def insS (l : List Transaction) (t : Transaction) : List Transaction :=
  if t ∈ l then l else l ++ [t]

/-- Python `s.remove(t)` / `s.discard(t)` (total: removes every occurrence). -/
def remS (l : List Transaction) (t : Transaction) : List Transaction :=
  l.filter (fun x => decide (x ≠ t))

/-! ### `BasePartition` state (`simulator/db.py`, `__init__`)

The `_read_values` dictionary of the source is initialised but never written
or read anywhere in the repository, so it is omitted.  The `id` and logger
fields have no behavioural content. -/

structure BaseState where
  submitted_at : List (Transaction × ℚ)
  started_at : List (Transaction × ℚ)
  finished_at : List (Transaction × ℚ)
  keys : Nat → Int
  current_time : ℚ
  pending : List Transaction
  started : List Transaction
  keystate : List (Transaction × Int)

/-- Fresh `BasePartition` state: empty maps and sets, `defaultdict(int)` store,
`_current_time = 0`. -/
def initBase : BaseState :=
  { submitted_at := []
    started_at := []
    finished_at := []
    keys := fun _ => 0
    current_time := 0
    pending := []
    started := []
    keystate := [] }

/-- `BasePartition._transaction_start`: snapshot the key, add to `_started`,
record `_started_at`. -/
def transactionStart (s : BaseState) (t : Transaction) : BaseState :=
  { s with
    keystate := upd s.keystate t (s.keys t.key)
    started := insS s.started t
    started_at := upd s.started_at t s.current_time }

/-- `BasePartition._transaction_finish`: remove from `_started`, record
`_finished_at`; then GET re-reads the store into `_keystate` (and returns
early, leaving the store untouched), OVERWRITE zeroes the key, and the
remaining case (INCREASE) writes snapshot + 1. -/
def transactionFinish (s : BaseState) (t : Transaction) : BaseState :=
  let s1 := { s with
    started := remS s.started t
    finished_at := upd s.finished_at t s.current_time }
  match t.type with
  | .GET => { s1 with keystate := upd s1.keystate t (s1.keys t.key) }
  | .OVERWRITE => { s1 with keys := fun k => if k = t.key then 0 else s1.keys k }
  | .INCREASE => { s1 with keys := fun k => if k = t.key then lookD s1.keystate t 0 + 1 else s1.keys k }

/-- `BasePartition.is_finished`: count of submitted equals count of finished. -/
def isFinished (s : BaseState) : Bool :=
  s.submitted_at.length == s.finished_at.length

/-- `BasePartition.get_latency_for_transaction`: `_finished_at[transaction] -
transaction.submit_time`; a missing entry is a `KeyError` (`none`). -/
def get_latency_for_transaction (s : BaseState) (t : Transaction) : Option ℚ :=
  (look s.finished_at t).map (fun f => f - t.submit_time)

/-- `BasePartition.get_read_value_for_transaction`: asserts membership in
`_finished_at` then returns `_keystate[transaction]`; assertion failure or
`KeyError` is `none`. -/
def get_read_value_for_transaction (s : BaseState) (t : Transaction) : Option Int :=
  if (look s.finished_at t).isSome then look s.keystate t else none

/-- `BasePartition.submit_transaction`: add to `_pending`, record
`_submitted_at` at the current clock cursor. -/
def submitTransaction (s : BaseState) (t : Transaction) : BaseState :=
  { s with
    pending := insS s.pending t
    submitted_at := upd s.submitted_at t s.current_time }

/-- A started transaction is due to finish when
`_current_time - _started_at[t] >= t.execution_time`. -/
def dueNow (s : BaseState) (t : Transaction) : Bool :=
  decide (s.current_time - lookD s.started_at t 0 ≥ t.execution_time)

/-! ### `EagerPartition` -/

/-- The loop body of `EagerPartition._start_transactions`, iterated over a
snapshot of `_pending`: remove from `_pending` and start unconditionally. -/
def eagerGo : BaseState → List Transaction → BaseState
  | s, [] => s
  | s, t :: rest => eagerGo (transactionStart { s with pending := remS s.pending t } t) rest

/-- The finish loop shared by `BasePartition.clock`: finish every member of
the precomputed due list. -/
def baseFinishGo : BaseState → List Transaction → BaseState
  | s, [] => s
  | s, t :: rest => baseFinishGo (transactionFinish s t) rest

/-- `BasePartition.clock` as run by `EagerPartition`, instrumented with the
lists of transactions on which `_transaction_start` and `_transaction_finish`
are invoked during the call. -/
def eagerClockEv (s : BaseState) (now : ℚ) : BaseState × List Transaction × List Transaction :=
  let s1 := { s with current_time := now }
  let s2 := eagerGo s1 s1.pending
  let due := s2.started.filter (fun t => dueNow s2 t)
  (baseFinishGo s2 due, s1.pending, due)

/-- `EagerPartition`'s clock (state part). -/
def eagerClock (s : BaseState) (now : ℚ) : BaseState :=
  (eagerClockEv s now).1

/-! ### `ReferencePartition`

Its `submit_transaction` override executes `self._submitted_at[transaction] =
transaction` — it stores the *transaction object itself* where every other
policy stores a time, so its submitted-at map has transaction-valued entries. -/

structure RefState where
  submitted_at : List (Transaction × Transaction)
  started_at : List (Transaction × ℚ)
  finished_at : List (Transaction × ℚ)
  keys : Nat → Int
  current_time : ℚ
  pending : List Transaction
  started : List Transaction
  keystate : List (Transaction × Int)

def initRef : RefState :=
  { submitted_at := []
    started_at := []
    finished_at := []
    keys := fun _ => 0
    current_time := 0
    pending := []
    started := []
    keystate := [] }

/-- `_transaction_start` acting on the reference partition's state. -/
def refStart (s : RefState) (t : Transaction) : RefState :=
  { s with
    keystate := upd s.keystate t (s.keys t.key)
    started := insS s.started t
    started_at := upd s.started_at t s.current_time }

/-- `_transaction_finish` acting on the reference partition's state. -/
def refFinish (s : RefState) (t : Transaction) : RefState :=
  let s1 := { s with
    started := remS s.started t
    finished_at := upd s.finished_at t s.current_time }
  match t.type with
  | .GET => { s1 with keystate := upd s1.keystate t (s1.keys t.key) }
  | .OVERWRITE => { s1 with keys := fun k => if k = t.key then 0 else s1.keys k }
  | .INCREASE => { s1 with keys := fun k => if k = t.key then lookD s1.keystate t 0 + 1 else s1.keys k }

/-- `ReferencePartition.clock`: only moves the cursor. -/
def refClock (s : RefState) (now : ℚ) : RefState :=
  { s with current_time := now }

/-- `ReferencePartition.submit_transaction`: records
`_submitted_at[transaction] = transaction` (sic), then runs start and finish
in-line at the current cursor. -/
def refSubmit (s : RefState) (t : Transaction) : RefState :=
  refFinish (refStart { s with submitted_at := upd s.submitted_at t t } t) t

def refIsFinished (s : RefState) : Bool :=
  s.submitted_at.length == s.finished_at.length

def refGetReadValue (s : RefState) (t : Transaction) : Option Int :=
  if (look s.finished_at t).isSome then look s.keystate t else none

/-! ### `DeferredPartition` -/

structure DeferredState where
  base : BaseState
  max_defer_time : ℚ
  deferred_at : List (Transaction × ℚ)
  depended_by : List (Transaction × List Transaction)
  depends_on : List (Transaction × List Transaction)

def initDeferred (mdt : ℚ) : DeferredState :=
  { base := initBase
    max_defer_time := mdt
    deferred_at := []
    depended_by := []
    depends_on := [] }

/-- The three-way conflict union computed by
`DeferredPartition._transaction_defer`: pending same-key transactions with a
strictly earlier recorded submit time, current keys of `_depends_on` with the
same key (irrespective of submit order), and started same-key transactions. -/
def conflictSet (d : DeferredState) (t : Transaction) : List Transaction :=
  (d.base.pending.filter (fun o =>
      decide (o.key = t.key ∧
        lookD d.base.submitted_at o 0 < lookD d.base.submitted_at t 0)))
  ++ ((dom d.depends_on).filter (fun o => decide (o.key = t.key)))
  ++ (d.base.started.filter (fun o => decide (o.key = t.key)))

/-- `DeferredPartition._transaction_defer`: returns `false` leaving the state
unchanged when the conflict union is empty; otherwise records `_deferred_at`,
stores the union in `_depends_on[t]`, adds `t` to `_depended_by[o]` for every
conflict `o`, and returns `true`. -/
def transactionDefer (d : DeferredState) (t : Transaction) : Bool × DeferredState :=
  let deps := conflictSet d t
  if deps = [] then (false, d)
  else
    (true,
      { d with
        deferred_at := upd d.deferred_at t d.base.current_time
        depends_on := upd d.depends_on t deps
        depended_by := deps.foldl (fun m o => upd m o (insS (lookD m o []) t)) d.depended_by })

/-- First loop of `DeferredPartition._start_transactions` over a snapshot of
`_pending`: remove from `_pending`, then start unless `_transaction_defer`
deferred it.  Also returns the transactions started. -/
def phase1Go : DeferredState → List Transaction → DeferredState × List Transaction
  | d, [] => (d, [])
  | d, t :: rest =>
    let d0 := { d with base := { d.base with pending := remS d.base.pending t } }
    let r := transactionDefer d0 t
    if r.1 then phase1Go r.2 rest
    else
      let d1 := { r.2 with base := transactionStart r.2.base t }
      let p := phase1Go d1 rest
      (p.1, t :: p.2)

/-- The edge-removal loop shared by the forced release and the overridden
finish: `self._depends_on[w].remove(t)` for each `w` in a dependent list. -/
def cutDeps (ws : List Transaction) (m : List (Transaction × List Transaction))
    (t : Transaction) : List (Transaction × List Transaction) :=
  ws.foldl (fun m' w => upd m' w (remS (lookD m' w []) t)) m

/-- The forced-release block of the second loop (`trigger_eager` true):
remove `t` from `_depends_on[w]` for every `w` in `_depended_by[t]`, then
delete `_depended_by[t]`.  The key store and `t`'s own `_depends_on` entry
are untouched. -/
def forceRelease (d : DeferredState) (t : Transaction) : DeferredState :=
  { d with
    depends_on := cutDeps (lookD d.depended_by t []) d.depends_on t
    depended_by := delA d.depended_by t }

/-- Second loop of `DeferredPartition._start_transactions`, over the key list
of `_depends_on`: optionally force-release on `max_defer_time` expiry, then
start the entry if its dependency set is (now) empty, collecting the started
transactions (whose `_depends_on` entries are deleted after the loop). -/
def phase2Go : DeferredState → List Transaction → DeferredState × List Transaction
  | d, [] => (d, [])
  | d, t :: rest =>
    let trigger := decide (d.max_defer_time > 0 ∧
      d.base.current_time - lookD d.deferred_at t 0 > d.max_defer_time)
    let d1 := if trigger then forceRelease d t else d
    if lookD d1.depends_on t [] = [] then
      let d2 := { d1 with base := transactionStart d1.base t }
      let p := phase2Go d2 rest
      (p.1, t :: p.2)
    else
      phase2Go d1 rest

/-- `DeferredPartition._start_transactions`: both loops, then deletion of the
started entries from `_depends_on`. -/
def deferredStartTransactions (d : DeferredState) : DeferredState × List Transaction :=
  let p1 := phase1Go d d.base.pending
  let p2 := phase2Go p1.1 (dom p1.1.depends_on)
  ({ p2.1 with depends_on := p2.2.foldl delA p2.1.depends_on }, p1.2 ++ p2.2)

/-- `DeferredPartition._transaction_finish`: the base finish, then removal of
the finished transaction from each dependent's `_depends_on` set and deletion
of its `_depended_by` entry. -/
def deferredFinish (d : DeferredState) (t : Transaction) : DeferredState :=
  let d1 := { d with base := transactionFinish d.base t }
  { d1 with
    depends_on := cutDeps (lookD d1.depended_by t []) d1.depends_on t
    depended_by := delA d1.depended_by t }

def deferredFinishGo : DeferredState → List Transaction → DeferredState
  | d, [] => d
  | d, t :: rest => deferredFinishGo (deferredFinish d t) rest

/-- `BasePartition.clock` as run by `DeferredPartition`, instrumented with
the start and finish events of the call. -/
def deferredClockEv (d : DeferredState) (now : ℚ) :
    DeferredState × List Transaction × List Transaction :=
  let dA := { d with base := { d.base with current_time := now } }
  let p := deferredStartTransactions dA
  let due := p.1.base.started.filter (fun t => dueNow p.1.base t)
  (deferredFinishGo p.1 due, p.2, due)

def deferredClock (d : DeferredState) (now : ℚ) : DeferredState :=
  (deferredClockEv d now).1

/-- `DeferredPartition.submit_transaction` is inherited from the base class. -/
def deferredSubmit (d : DeferredState) (t : Transaction) : DeferredState :=
  { d with base := submitTransaction d.base t }

def deferredIsFinished (d : DeferredState) : Bool :=
  isFinished d.base

/-- `DeferredPartition._start_transactions` with the phase-1 iteration order
over `set(self._pending)` made explicit: the source's `for transaction in
pending_clone` visits the snapshot in CPython hash order, so the embedding is
faithful exactly when `ord` is a permutation of the `_pending` snapshot.
`deferredStartTransactions` is the insertion-order instance. -/
def deferredStartTransactionsOrd (ord : List Transaction) (d : DeferredState) :
    DeferredState × List Transaction :=
  let p1 := phase1Go d ord
  let p2 := phase2Go p1.1 (dom p1.1.depends_on)
  ({ p2.1 with depends_on := p2.2.foldl delA p2.1.depends_on }, p1.2 ++ p2.2)

/-- `BasePartition.clock` as run by `DeferredPartition`, with the phase-1
scan order explicit (the phase-2 loop is over a dict and the finish loop over
the due set; the latter's order is observable only when two or more
transactions become due in one tick). -/
def deferredClockOrd (ord : List Transaction) (d : DeferredState) (now : ℚ) : DeferredState :=
  let dA := { d with base := { d.base with current_time := now } }
  let p := deferredStartTransactionsOrd ord dA
  let due := p.1.base.started.filter (fun t => dueNow p.1.base t)
  deferredFinishGo p.1 due

/-- `deferredClock` is the instance of `deferredClockOrd` that scans the
pending snapshot in insertion order. -/
theorem deferredClockOrd_pending (d : DeferredState) (now : ℚ) :
    deferredClockOrd d.base.pending d now = deferredClock d now := rfl

/-! ### Driver runs -/

/-- One driver action on a partition: a `clock(now)` call or a
`submit_transaction` call. -/
inductive Op where
  | clock (now : ℚ)
  | submit (tx : Transaction)
deriving DecidableEq

/-- The transactions submitted by a sequence of driver actions, in order. -/
def submitsOf : List Op → List Transaction
  | [] => []
  | Op.clock _ :: rest => submitsOf rest
  | Op.submit tx :: rest => tx :: submitsOf rest

/-- Clock calls are monotonically non-decreasing starting from cursor `t0`. -/
def clocksMono (t0 : ℚ) : List Op → Bool
  | [] => true
  | Op.clock now :: rest => decide (t0 ≤ now) && clocksMono now rest
  | Op.submit _ :: rest => clocksMono t0 rest

/-- Run a deferred partition through a sequence of driver actions. -/
def runD (d : DeferredState) : List Op → DeferredState
  | [] => d
  | Op.clock now :: rest => runD (deferredClock d now) rest
  | Op.submit tx :: rest => runD (deferredSubmit d tx) rest

/-- Run a reference partition through the same kind of action sequence. -/
def runR (s : RefState) : List Op → RefState
  | [] => s
  | Op.clock now :: rest => runR (refClock s now) rest
  | Op.submit tx :: rest => runR (refSubmit s tx) rest

/-- Run an eager partition through the same kind of action sequence. -/
def runE (s : BaseState) : List Op → BaseState
  | [] => s
  | Op.clock now :: rest => runE (eagerClock s now) rest
  | Op.submit tx :: rest => runE (submitTransaction s tx) rest

/-! ### `main.py` partition routing -/

/-- The routing expression of `run_on_partitions`:
`partitions[transaction.key // len(partitions)]` — floor division, not mod. -/
def partitionIndexFor (key numPartitions : Nat) : Nat :=
  key / numPartitions

/-! ## Basic lemmas about the map and set primitives -/

@[simp] theorem look_nil {α : Type} (t : Transaction) : look ([] : List (Transaction × α)) t = none := rfl

@[simp] theorem dom_nil {α : Type} : dom ([] : List (Transaction × α)) = [] := rfl

@[simp] theorem dom_cons {α : Type} (p : Transaction × α) (m : List (Transaction × α)) :
    dom (p :: m) = p.1 :: dom m := rfl

@[simp] theorem dom_append {α : Type} (m m' : List (Transaction × α)) :
    dom (m ++ m') = dom m ++ dom m' := by
  simp [dom]

@[simp] theorem look_upd_self {α : Type} (m : List (Transaction × α)) (t : Transaction) (v : α) :
    look (upd m t v) t = some v := by
  induction m with
  | nil => simp [upd, look]
  | cons p rest ih =>
    by_cases h : p.1 = t
    · simp [upd, h, look]
    · simp [upd, h, look, ih]

theorem look_upd_ne {α : Type} (m : List (Transaction × α)) {t t' : Transaction} (v : α)
    (h : t' ≠ t) : look (upd m t v) t' = look m t' := by
  induction m with
  | nil => simp [upd, look, Ne.symm h]
  | cons p rest ih =>
    by_cases hp : p.1 = t
    · simp [upd, hp, look, h, Ne.symm h]
    · simp [upd, hp, look, ih]

theorem look_isSome_iff_mem_dom {α : Type} (m : List (Transaction × α)) (t : Transaction) :
    (look m t).isSome ↔ t ∈ dom m := by
  induction m with
  | nil => simp [look]
  | cons p rest ih =>
    by_cases h : p.1 = t
    · simp [look, h]
    · simp [look, h, ih, Ne.symm h]

theorem look_eq_none_iff_not_mem_dom {α : Type} (m : List (Transaction × α)) (t : Transaction) :
    look m t = none ↔ t ∉ dom m := by
  rw [← look_isSome_iff_mem_dom]
  cases look m t <;> simp

theorem upd_of_not_mem_dom {α : Type} {m : List (Transaction × α)} {t : Transaction} (v : α)
    (h : t ∉ dom m) : upd m t v = m ++ [(t, v)] := by
  induction m with
  | nil => simp [upd]
  | cons p rest ih =>
    simp only [dom_cons, List.mem_cons, not_or] at h
    have h1 : ¬ p.1 = t := fun e => h.1 e.symm
    simp [upd, h1, ih h.2]

theorem dom_upd_of_mem {α : Type} {m : List (Transaction × α)} {t : Transaction} (v : α)
    (h : t ∈ dom m) : dom (upd m t v) = dom m := by
  induction m with
  | nil => simp at h
  | cons p rest ih =>
    by_cases hp : p.1 = t
    · simp [upd, hp]
    · simp only [dom_cons, List.mem_cons] at h
      rcases h with h | h
      · exact absurd h.symm hp
      · simp [upd, hp, ih h]

theorem dom_upd_of_not_mem {α : Type} {m : List (Transaction × α)} {t : Transaction} (v : α)
    (h : t ∉ dom m) : dom (upd m t v) = dom m ++ [t] := by
  rw [upd_of_not_mem_dom v h]
  simp

theorem mem_dom_upd {α : Type} {m : List (Transaction × α)} {t x : Transaction} (v : α) :
    x ∈ dom (upd m t v) ↔ x ∈ dom m ∨ x = t := by
  by_cases h : t ∈ dom m
  · rw [dom_upd_of_mem v h]
    constructor
    · exact Or.inl
    · rintro (hx | rfl)
      · exact hx
      · exact h
  · rw [dom_upd_of_not_mem v h]
    simp

theorem nodup_dom_upd {α : Type} {m : List (Transaction × α)} {t : Transaction} (v : α)
    (h : (dom m).Nodup) : (dom (upd m t v)).Nodup := by
  by_cases hm : t ∈ dom m
  · rwa [dom_upd_of_mem v hm]
  · rw [dom_upd_of_not_mem v hm]
    simpa [List.nodup_append] using ⟨h, hm⟩

@[simp] theorem look_delA_self {α : Type} (m : List (Transaction × α)) (t : Transaction) :
    look (delA m t) t = none := by
  induction m with
  | nil => simp [delA, look]
  | cons p rest ih =>
    by_cases h : p.1 = t
    · simpa [delA, List.filter_cons, h] using ih
    · simpa [delA, List.filter_cons, h, look] using ih

theorem look_delA_ne {α : Type} (m : List (Transaction × α)) {t t' : Transaction}
    (h : t' ≠ t) : look (delA m t) t' = look m t' := by
  induction m with
  | nil => simp [delA]
  | cons p rest ih =>
    by_cases hp : p.1 = t
    · subst hp
      simpa [delA, List.filter_cons, look, Ne.symm h] using ih
    · simp [delA, List.filter_cons, hp, look] at ih ⊢
      simp [ih]

theorem dom_delA {α : Type} (m : List (Transaction × α)) (t : Transaction) :
    dom (delA m t) = (dom m).filter (fun x => decide (x ≠ t)) := by
  induction m with
  | nil => simp [delA]
  | cons p rest ih =>
    by_cases h : p.1 = t
    · simpa [delA, List.filter_cons, h] using ih
    · simpa [delA, List.filter_cons, h] using ih

theorem mem_dom_delA {α : Type} {m : List (Transaction × α)} {t x : Transaction} :
    x ∈ dom (delA m t) ↔ x ∈ dom m ∧ x ≠ t := by
  simp [dom_delA]

@[simp] theorem mem_insS {l : List Transaction} {t x : Transaction} :
    x ∈ insS l t ↔ x ∈ l ∨ x = t := by
  unfold insS
  by_cases h : t ∈ l
  · simp only [if_pos h]
    constructor
    · exact Or.inl
    · rintro (hx | rfl)
      · exact hx
      · exact h
  · simp [if_neg h]

theorem nodup_insS {l : List Transaction} (t : Transaction) (h : l.Nodup) :
    (insS l t).Nodup := by
  unfold insS
  by_cases ht : t ∈ l
  · simpa [if_pos ht]
  · simpa [if_neg ht, List.nodup_append] using ⟨h, ht⟩

@[simp] theorem mem_remS {l : List Transaction} {t x : Transaction} :
    x ∈ remS l t ↔ x ∈ l ∧ x ≠ t := by
  simp [remS]

theorem nodup_remS {l : List Transaction} (t : Transaction) (h : l.Nodup) :
    (remS l t).Nodup :=
  h.filter _

theorem remS_sublist (l : List Transaction) (t : Transaction) : (remS l t).Sublist l :=
  List.filter_sublist l

theorem remS_of_not_mem {l : List Transaction} {t : Transaction} (h : t ∉ l) :
    remS l t = l :=
  List.filter_eq_self.2 fun a ha => by
    simp only [ne_eq, decide_eq_true_eq]
    exact fun hat => h (hat ▸ ha)

theorem remS_cons_self {l : List Transaction} {t : Transaction} (h : t ∉ l) :
    remS (t :: l) t = l := by
  have hd : (decide (t ≠ t)) = false := by simp
  simp only [remS, List.filter_cons, hd, Bool.false_eq_true, if_false]
  exact remS_of_not_mem h

/-! ## Claim C3: finish effects by transaction kind -/

/-- Claim C3: finishing a READ re-reads the current store value of the key
into the snapshot and leaves the store unchanged; finishing an OVERWRITE
sets the store value of the key to 0 unconditionally; finishing an INCREASE
sets it to the snapshot taken at start plus one. -/
theorem finish_effects_by_kind (s : BaseState) (t : Transaction) (v : Int)
    (hv : look s.keystate t = some v) :
    (t.type = TransactionType.GET →
      (transactionFinish s t).keys = s.keys ∧
      look (transactionFinish s t).keystate t = some (s.keys t.key)) ∧
    (t.type = TransactionType.OVERWRITE →
      (transactionFinish s t).keys t.key = 0) ∧
    (t.type = TransactionType.INCREASE →
      (transactionFinish s t).keys t.key = v + 1) := by
  refine ⟨fun h => ?_, fun h => ?_, fun h => ?_⟩ <;>
    simp [transactionFinish, h, lookD, hv]

/-- Concrete instance of `finish_effects_by_kind` discharging its hypothesis. -/
theorem finish_effects_by_kind_witness :
    let t : Transaction :=
      { id := 0, type := TransactionType.INCREASE, submit_time := 0, execution_time := 1, key := 3 }
    let s : BaseState := { initBase with keystate := [(t, 5)], started := [t] }
    look s.keystate t = some 5 ∧ (transactionFinish s t).keys t.key = 5 + 1 := by
  refine ⟨by with_unfolding_all decide, ?_⟩
  exact (finish_effects_by_kind _ _ 5 (by with_unfolding_all decide)).2.2 rfl

/-! ## Claim C9: queries on unfinished transactions fail loudly -/

/-- Claim C9: querying the latency or the read value of a transaction with no
`_finished_at` entry fails (KeyError / assertion, modelled as `none`); neither
query silently returns a value for an unfinished transaction. -/
theorem queries_fail_when_unfinished (s : BaseState) (t : Transaction)
    (h : look s.finished_at t = none) :
    get_latency_for_transaction s t = none ∧
    get_read_value_for_transaction s t = none := by
  constructor
  · simp [get_latency_for_transaction, h]
  · simp [get_read_value_for_transaction, h]

/-- Concrete instance of `queries_fail_when_unfinished`. -/
theorem queries_fail_when_unfinished_witness :
    let t : Transaction :=
      { id := 0, type := TransactionType.GET, submit_time := 0, execution_time := 1, key := 0 }
    look initBase.finished_at t = none ∧
    get_latency_for_transaction initBase t = none ∧
    get_read_value_for_transaction initBase t = none := by
  intro t
  have h : look initBase.finished_at t = none := by with_unfolding_all decide
  exact ⟨h, queries_fail_when_unfinished initBase t h⟩

/-! ## Claim C5: the reference policy is fully serial -/

/-- Claim C5: `ReferencePartition.submit_transaction` performs start then
finish in-line, recording the current clock cursor (the time at which the
caller submits) as both the start time and the finish time, and
`ReferencePartition.clock` changes nothing but the current-time cursor. -/
theorem reference_submit_serial (s : RefState) (t : Transaction) (now : ℚ) :
    refSubmit s t = refFinish (refStart { s with submitted_at := upd s.submitted_at t t } t) t ∧
    look (refSubmit s t).started_at t = some s.current_time ∧
    look (refSubmit s t).finished_at t = some s.current_time ∧
    refClock s now = { s with current_time := now } := by
  refine ⟨rfl, ?_, ?_, rfl⟩
  · cases h : t.type <;> simp [refSubmit, refFinish, refStart, h]
  · cases h : t.type <;> simp [refSubmit, refFinish, refStart, h]

/-! ## Claim C4: the dependency set computed at first consideration -/

/-- Adding a dependent into the `_depended_by` reverse index: after the fold,
`t` is a member of every processed dependency's entry, and membership is never
lost. -/
theorem depended_by_fold_mem (t : Transaction) :
    ∀ (deps : List Transaction) (m0 : List (Transaction × List Transaction)) (o : Transaction),
      (o ∈ deps ∨ t ∈ lookD m0 o []) →
      t ∈ lookD (deps.foldl (fun m x => upd m x (insS (lookD m x []) t)) m0) o [] := by
  intro deps
  induction deps with
  | nil =>
    intro m0 o h
    rcases h with h | h
    · simp at h
    · simpa using h
  | cons a rest ih =>
    intro m0 o h
    simp only [List.foldl_cons]
    by_cases hoa : o = a
    · subst hoa
      exact ih _ o (Or.inr (by simp [lookD, look_upd_self]))
    · rcases h with h | h
      · rcases List.mem_cons.1 h with rfl | hr
        · exact absurd rfl hoa
        · exact ih _ o (Or.inl hr)
      · exact ih _ o (Or.inr (by simpa [lookD, look_upd_ne _ _ hoa] using h))

/-- Claim C4: when a transaction is first considered, its dependency set is
exactly the union of (i) pending same-key transactions with strictly earlier
recorded submit time, (ii) current keys of `_depends_on` with the same key
(irrespective of submit order), and (iii) started same-key transactions;
`_transaction_defer` declines to defer (so the caller starts the transaction)
iff that union is empty, and otherwise records the defer time, stores the set
in `_depends_on`, and adds the transaction to each dependency's
`_depended_by`. -/
theorem defer_dependency_computation (d : DeferredState) (t : Transaction) :
    (∀ o so st, look d.base.submitted_at o = some so →
      look d.base.submitted_at t = some st →
      (o ∈ conflictSet d t ↔ o.key = t.key ∧
        ((o ∈ d.base.pending ∧ so < st) ∨ o ∈ dom d.depends_on ∨ o ∈ d.base.started))) ∧
    ((transactionDefer d t).1 = false ↔ conflictSet d t = []) ∧
    (conflictSet d t = [] → (transactionDefer d t).2 = d) ∧
    (conflictSet d t ≠ [] →
      look (transactionDefer d t).2.deferred_at t = some d.base.current_time ∧
      look (transactionDefer d t).2.depends_on t = some (conflictSet d t) ∧
      ∀ o ∈ conflictSet d t, t ∈ lookD (transactionDefer d t).2.depended_by o []) := by
  refine ⟨?_, ?_, ?_, ?_⟩
  · intro o so st ho ht
    simp only [conflictSet, List.mem_append, List.mem_filter, decide_eq_true_eq, lookD, ho, ht,
      Option.getD_some]
    constructor
    · rintro ((⟨hp, hk, hlt⟩ | ⟨hd, hk⟩) | ⟨hs, hk⟩)
      · exact ⟨hk, Or.inl ⟨hp, hlt⟩⟩
      · exact ⟨hk, Or.inr (Or.inl hd)⟩
      · exact ⟨hk, Or.inr (Or.inr hs)⟩
    · rintro ⟨hk, (⟨hp, hlt⟩ | hd | hs)⟩
      · exact Or.inl (Or.inl ⟨hp, hk, hlt⟩)
      · exact Or.inl (Or.inr ⟨hd, hk⟩)
      · exact Or.inr ⟨hs, hk⟩
  · unfold transactionDefer
    by_cases h : conflictSet d t = [] <;> simp [h]
  · intro h
    simp [transactionDefer, h]
  · intro h
    refine ⟨?_, ?_, ?_⟩
    · simp [transactionDefer, h, look_upd_self]
    · simp [transactionDefer, h, look_upd_self]
    · intro o ho
      simp only [transactionDefer, if_neg h]
      exact depended_by_fold_mem t _ _ o (Or.inl ho)

/-- Concrete instance of `defer_dependency_computation`: one started
transaction on the same key makes the newcomer defer on exactly it. -/
theorem defer_dependency_computation_witness :
    let tA : Transaction :=
      { id := 0, type := TransactionType.INCREASE, submit_time := 0, execution_time := 2, key := 0 }
    let tB : Transaction :=
      { id := 1, type := TransactionType.GET, submit_time := 0, execution_time := 1, key := 0 }
    let d : DeferredState :=
      { base := { initBase with
          submitted_at := [(tA, 0), (tB, 0)]
          started := [tA]
          started_at := [(tA, 1)]
          current_time := 1 }
        max_defer_time := -1
        deferred_at := []
        depended_by := []
        depends_on := [] }
    (tA ∈ conflictSet d tB ↔ tA.key = tB.key ∧
      ((tA ∈ d.base.pending ∧ (0:ℚ) < 0) ∨ tA ∈ dom d.depends_on ∨ tA ∈ d.base.started)) ∧
    conflictSet d tB ≠ [] ∧
    look (transactionDefer d tB).2.depends_on tB = some (conflictSet d tB) := by
  intro tA tB d
  refine ⟨(defer_dependency_computation d tB).1 tA 0 0 (by with_unfolding_all decide)
    (by with_unfolding_all decide), by with_unfolding_all decide, ?_⟩
  exact ((defer_dependency_computation d tB).2.2.2 (by with_unfolding_all decide)).2.1

/-! ## Claim C2: the forced release does not start the released transaction -/

/-- The two transactions of the forced-release scenario: `c2A` holds key 0
for 100 time units; `c2B` is deferred behind it with `max_defer_time = 1`. -/
def c2A : Transaction :=
  { id := 0, type := TransactionType.INCREASE, submit_time := 0, execution_time := 100, key := 0 }

def c2B : Transaction :=
  { id := 1, type := TransactionType.GET, submit_time := 0, execution_time := 1, key := 0 }

/-- The forced-release run: B is deferred behind A at time 1; the
`trigger_eager` condition `now - deferredAt[B] > maxDeferTime` holds from
time 3 onwards. -/
def c2Run : DeferredState :=
  runD (initDeferred 1) [Op.clock 0, Op.submit c2A, Op.submit c2B,
    Op.clock 1, Op.clock 2, Op.clock 3, Op.clock 4]

/-- Claim C2 fails on the code: in `c2Run`, B's deferral age exceeded
`max_defer_time` at the tick at time 3 (and the trigger fired: its
`_depended_by` entry is gone), yet B was never started — it still sits in
`_depends_on` with its dependency on A intact at time 4, three ticks past
the bound.  The trigger only cuts the edges of B's *dependents*; it neither
clears B's own dependency set nor starts B. -/
theorem force_release_does_not_start :
    ((4 : ℚ) - lookD c2Run.deferred_at c2B 0 > c2Run.max_defer_time + 1) ∧
    look c2Run.base.started_at c2B = none ∧
    c2B ∉ c2Run.base.started ∧
    look c2Run.depends_on c2B = some [c2A] ∧
    look c2Run.base.started_at c2A = some 1 := by
  with_unfolding_all decide

/-! ## Claim C7: the reference policy records no submit timestamp -/

/-- A sample transaction submitted to a fresh reference partition. -/
def c7T : Transaction :=
  { id := 0, type := TransactionType.GET, submit_time := 0, execution_time := 1, key := 0 }

/-- Claim C7 fails on the code for the reference policy:
`ReferencePartition.submit_transaction` executes
`self._submitted_at[transaction] = transaction`, storing the transaction
object itself where a timestamp belongs, so `submittedAt[t]` is not a time
and the chain `finishedAt ≥ startedAt ≥ submittedAt ≥ submitTime` cannot
hold there.  (The base-class submit used by the eager and deferred policies
records the clock cursor, by contrast.) -/
theorem reference_submitted_at_stores_transaction :
    look (refSubmit initRef c7T).submitted_at c7T = some c7T ∧
    look (submitTransaction initBase c7T).submitted_at c7T = some (0 : ℚ) := by
  with_unfolding_all decide

/-! ## State projections and effect lemmas for the deferred scheduler -/

/-- Transactions ever submitted, in submission order (keys of `_submitted_at`). -/
def subD (d : DeferredState) : List Transaction := dom d.base.submitted_at

/-- The pending set. -/
def pendD (d : DeferredState) : List Transaction := d.base.pending

/-- The started set. -/
def strtD (d : DeferredState) : List Transaction := d.base.started

/-- Finished transactions (keys of `_finished_at`). -/
def finD (d : DeferredState) : List Transaction := dom d.base.finished_at

/-- Currently deferred transactions (keys of `_depends_on`). -/
def defkD (d : DeferredState) : List Transaction := dom d.depends_on

/-- The dependency set of a deferred transaction. -/
def depsD (d : DeferredState) (t : Transaction) : List Transaction := lookD d.depends_on t []

/-- The dependents recorded for a transaction. -/
def dbyD (d : DeferredState) (t : Transaction) : List Transaction := lookD d.depended_by t []

theorem insS_of_not_mem {l : List Transaction} {t : Transaction} (h : t ∉ l) :
    insS l t = l ++ [t] :=
  if_neg h

theorem remS_idem (l : List Transaction) (t : Transaction) :
    remS (remS l t) t = remS l t := by
  simp [remS, List.filter_filter]

theorem insS_idem (l : List Transaction) (t : Transaction) :
    insS (insS l t) t = insS l t := by
  unfold insS
  by_cases h : t ∈ l <;> simp [h]

@[simp] theorem finish_started (s : BaseState) (t : Transaction) :
    (transactionFinish s t).started = remS s.started t := by
  cases ht : t.type <;> simp [transactionFinish, ht]

@[simp] theorem finish_finished_at (s : BaseState) (t : Transaction) :
    (transactionFinish s t).finished_at = upd s.finished_at t s.current_time := by
  cases ht : t.type <;> simp [transactionFinish, ht]

@[simp] theorem finish_pending (s : BaseState) (t : Transaction) :
    (transactionFinish s t).pending = s.pending := by
  cases ht : t.type <;> simp [transactionFinish, ht]

@[simp] theorem finish_submitted_at (s : BaseState) (t : Transaction) :
    (transactionFinish s t).submitted_at = s.submitted_at := by
  cases ht : t.type <;> simp [transactionFinish, ht]

@[simp] theorem finish_started_at (s : BaseState) (t : Transaction) :
    (transactionFinish s t).started_at = s.started_at := by
  cases ht : t.type <;> simp [transactionFinish, ht]

@[simp] theorem finish_current_time (s : BaseState) (t : Transaction) :
    (transactionFinish s t).current_time = s.current_time := by
  cases ht : t.type <;> simp [transactionFinish, ht]

theorem finish_keystate_of_ne (s : BaseState) {t x : Transaction} (h : x ≠ t) :
    look (transactionFinish s t).keystate x = look s.keystate x := by
  cases ht : t.type <;> simp [transactionFinish, ht, look_upd_ne _ _ h]

theorem finish_keys_of_ne (s : BaseState) {t : Transaction} {k : Nat} (h : k ≠ t.key) :
    (transactionFinish s t).keys k = s.keys k := by
  cases ht : t.type <;> simp [transactionFinish, ht, h]

/-- Characterisation of the shared edge-removal loop: entries of processed
dependents are filtered, all others are untouched. -/
theorem cutDeps_look (t : Transaction) :
    ∀ (ws : List Transaction) (m : List (Transaction × List Transaction)) (w : Transaction),
      look (cutDeps ws m t) w =
        if w ∈ ws then some (remS (lookD m w []) t) else look m w := by
  intro ws
  induction ws with
  | nil => intro m w; simp [cutDeps]
  | cons a rest ih =>
    intro m w
    simp only [cutDeps, List.foldl_cons] at *
    rw [ih]
    by_cases hw : w ∈ rest
    · simp only [hw, if_true, List.mem_cons, or_true, if_true]
      by_cases hwa : w = a
      · subst hwa
        simp [lookD, look_upd_self, remS_idem]
      · simp [lookD, look_upd_ne _ _ hwa]
    · by_cases hwa : w = a
      · subst hwa
        simp [hw, look_upd_self]
      · simp [hw, hwa, look_upd_ne _ _ hwa]

/-- The edge-removal loop never adds or removes keys when every processed
dependent is already a key. -/
theorem cutDeps_dom (t : Transaction) :
    ∀ (ws : List Transaction) (m : List (Transaction × List Transaction)),
      (∀ w ∈ ws, w ∈ dom m) → dom (cutDeps ws m t) = dom m := by
  intro ws
  induction ws with
  | nil => intro m _; simp [cutDeps]
  | cons a rest ih =>
    intro m h
    simp only [cutDeps, List.foldl_cons]
    have ha : a ∈ dom m := h a (List.mem_cons_self a rest)
    have hdom : dom (upd m a (remS (lookD m a []) t)) = dom m := dom_upd_of_mem _ ha
    rw [show List.foldl (fun m' w => upd m' w (remS (lookD m' w []) t))
        (upd m a (remS (lookD m a []) t)) rest =
        cutDeps rest (upd m a (remS (lookD m a []) t)) t from rfl,
      ih _ (fun w hw => hdom ▸ h w (List.mem_cons_of_mem a hw)), hdom]

/-- Characterisation of the `_depended_by` update loop in
`_transaction_defer`: every processed dependency's entry gains `t`, all other
entries are untouched. -/
theorem deferDby_look (t : Transaction) :
    ∀ (deps : List Transaction) (m : List (Transaction × List Transaction)) (x : Transaction),
      lookD (deps.foldl (fun m' o => upd m' o (insS (lookD m' o []) t)) m) x [] =
        if x ∈ deps then insS (lookD m x []) t else lookD m x [] := by
  intro deps
  induction deps with
  | nil => intro m x; simp
  | cons a rest ih =>
    intro m x
    simp only [List.foldl_cons]
    rw [ih]
    by_cases hx : x ∈ rest
    · simp only [hx, if_true, List.mem_cons, or_true, if_true]
      by_cases hxa : x = a
      · subst hxa
        simp [lookD, look_upd_self, insS_idem]
      · simp [lookD, look_upd_ne _ _ hxa]
    · by_cases hxa : x = a
      · subst hxa
        simp [hx, lookD, look_upd_self]
      · simp [hx, hxa, lookD, look_upd_ne _ _ hxa]

/-! ## The scheduler bookkeeping invariant

`P2Inv d ev` is the bookkeeping invariant of a `DeferredPartition` state.
`ev` is the list of transactions started by the in-progress second loop of
`_start_transactions` whose `_depends_on` entries have not yet been deleted
(the code deletes them only after the loop); between operations `ev = []`. -/

structure P2Inv (d : DeferredState) (ev : List Transaction) : Prop where
  ndSub : (subD d).Nodup
  ndStrt : (strtD d).Nodup
  ndDefk : (defkD d).Nodup
  ndFin : (finD d).Nodup
  pendSl : (pendD d).Sublist (subD d)
  strtSub : ∀ x ∈ strtD d, x ∈ subD d
  defkSub : ∀ x ∈ defkD d, x ∈ subD d
  finSub : ∀ x ∈ finD d, x ∈ subD d
  dPS : ∀ x ∈ pendD d, x ∉ strtD d
  dPD : ∀ x ∈ pendD d, x ∉ defkD d
  dPF : ∀ x ∈ pendD d, x ∉ finD d
  dSD : ∀ x ∈ strtD d, x ∈ defkD d → x ∈ ev
  dSF : ∀ x ∈ strtD d, x ∉ finD d
  dDF : ∀ x ∈ defkD d, x ∉ finD d
  part : ∀ x ∈ subD d, x ∈ pendD d ∨ x ∈ strtD d ∨ x ∈ defkD d ∨ x ∈ finD d
  sdom : ∀ x, (look d.base.started_at x).isSome ↔ (x ∈ strtD d ∨ x ∈ finD d)
  evStrt : ∀ x ∈ ev, x ∈ strtD d
  evDefk : ∀ x ∈ ev, x ∈ defkD d
  evDeps : ∀ x ∈ ev, depsD d x = []
  rev : ∀ x w, w ∈ dbyD d x → w ∈ defkD d ∧ x ∈ depsD d w

/-- The between-operations form of the invariant. -/
def WInv (d : DeferredState) : Prop := P2Inv d []

theorem winv_init (mdt : ℚ) : WInv (initDeferred mdt) := by
  constructor <;> simp [initDeferred, initBase, subD, pendD, strtD, finD, defkD, depsD, dbyD,
    dom, look, lookD]

theorem winv_setTime {d : DeferredState} (h : WInv d) (now : ℚ) :
    WInv { d with base := { d.base with current_time := now } } :=
  { ndSub := h.ndSub, ndStrt := h.ndStrt, ndDefk := h.ndDefk, ndFin := h.ndFin
    pendSl := h.pendSl, strtSub := h.strtSub, defkSub := h.defkSub, finSub := h.finSub
    dPS := h.dPS, dPD := h.dPD, dPF := h.dPF, dSD := h.dSD, dSF := h.dSF, dDF := h.dDF
    part := h.part, sdom := h.sdom, evStrt := h.evStrt, evDefk := h.evDefk
    evDeps := h.evDeps, rev := h.rev }

theorem winv_submit {d : DeferredState} (h : WInv d) {t : Transaction} (ht : t ∉ subD d) :
    WInv (deferredSubmit d t) ∧ subD (deferredSubmit d t) = subD d ++ [t] := by
  have hsub : subD (deferredSubmit d t) = subD d ++ [t] := by
    simp only [deferredSubmit, submitTransaction, subD]
    exact dom_upd_of_not_mem _ ht
  have hpnotin : t ∉ pendD d := fun hp => ht (h.pendSl.subset hp)
  have hpend : pendD (deferredSubmit d t) = pendD d ++ [t] := by
    simp only [deferredSubmit, submitTransaction, pendD]
    exact insS_of_not_mem hpnotin
  have hstrt : strtD (deferredSubmit d t) = strtD d := rfl
  have hfin : finD (deferredSubmit d t) = finD d := rfl
  have hdefk : defkD (deferredSubmit d t) = defkD d := rfl
  have htS : t ∉ strtD d := fun hs => ht (h.strtSub t hs)
  have htD : t ∉ defkD d := fun hs => ht (h.defkSub t hs)
  have htF : t ∉ finD d := fun hs => ht (h.finSub t hs)
  refine ⟨?_, hsub⟩
  refine
    { ndSub := ?_, ndStrt := h.ndStrt, ndDefk := h.ndDefk, ndFin := h.ndFin
      pendSl := ?_, strtSub := ?_, defkSub := ?_, finSub := ?_
      dPS := ?_, dPD := ?_, dPF := ?_
      dSD := by rw [hstrt, hdefk]; exact h.dSD
      dSF := by rw [hstrt, hfin]; exact h.dSF
      dDF := by rw [hdefk, hfin]; exact h.dDF
      part := ?_
      sdom := ?_
      evStrt := by simp
      evDefk := by simp
      evDeps := by simp
      rev := h.rev }
  · rw [hsub]
    simpa [List.nodup_append] using ⟨h.ndSub, ht⟩
  · rw [hsub, hpend]
    exact h.pendSl.append (List.Sublist.refl _)
  · rw [hsub, hstrt]
    exact fun x hx => List.mem_append_left _ (h.strtSub x hx)
  · rw [hsub, hdefk]
    exact fun x hx => List.mem_append_left _ (h.defkSub x hx)
  · rw [hsub, hfin]
    exact fun x hx => List.mem_append_left _ (h.finSub x hx)
  · rw [hpend, hstrt]
    intro x hx
    rcases List.mem_append.1 hx with hx | hx
    · exact h.dPS x hx
    · simp only [List.mem_singleton] at hx
      subst hx
      exact htS
  · rw [hpend, hdefk]
    intro x hx
    rcases List.mem_append.1 hx with hx | hx
    · exact h.dPD x hx
    · simp only [List.mem_singleton] at hx
      subst hx
      exact htD
  · rw [hpend, hfin]
    intro x hx
    rcases List.mem_append.1 hx with hx | hx
    · exact h.dPF x hx
    · simp only [List.mem_singleton] at hx
      subst hx
      exact htF
  · rw [hsub, hpend, hstrt, hdefk, hfin]
    intro x hx
    rcases List.mem_append.1 hx with hx | hx
    · rcases h.part x hx with hp | hp | hp | hp
      · exact Or.inl (List.mem_append_left _ hp)
      · exact Or.inr (Or.inl hp)
      · exact Or.inr (Or.inr (Or.inl hp))
      · exact Or.inr (Or.inr (Or.inr hp))
    · simp only [List.mem_singleton] at hx
      subst hx
      exact Or.inl (List.mem_append_right _ (List.mem_singleton_self _))
  · rw [hstrt, hfin]
    exact h.sdom

/-! ### Preservation through the first loop of `_start_transactions` -/

theorem pend_head_facts {d : DeferredState} (h : WInv d) {t : Transaction}
    {rest : List Transaction} (hp : pendD d = t :: rest) :
    t ∈ subD d ∧ t ∉ strtD d ∧ t ∉ defkD d ∧ t ∉ finD d ∧ t ∉ rest ∧
    remS (pendD d) t = rest := by
  have htp : t ∈ pendD d := by rw [hp]; exact List.mem_cons_self t rest
  have hnd : (pendD d).Nodup := h.pendSl.nodup h.ndSub
  have htr : t ∉ rest := by
    rw [hp] at hnd
    exact (List.nodup_cons.1 hnd).1
  refine ⟨h.pendSl.subset htp, h.dPS t htp, h.dPD t htp, h.dPF t htp, htr, ?_⟩
  rw [hp]
  exact remS_cons_self htr

/-- When the head of pending is started (empty conflict union), the invariant
survives and the pending list shrinks to the tail. -/
theorem winv_start_step {d : DeferredState} (h : WInv d) {t : Transaction}
    {rest : List Transaction} (hp : pendD d = t :: rest) :
    WInv { d with base := transactionStart { d.base with pending := remS d.base.pending t } t } ∧
    pendD { d with base := transactionStart { d.base with pending := remS d.base.pending t } t } = rest := by
  obtain ⟨htSub, htS, htD, htF, htR, hrem⟩ := pend_head_facts h hp
  have hpend : pendD { d with base := transactionStart { d.base with pending := remS d.base.pending t } t } = rest := by
    simpa [pendD, transactionStart] using hrem
  have hstrt : strtD { d with base := transactionStart { d.base with pending := remS d.base.pending t } t } =
      strtD d ++ [t] := by
    simpa [strtD, transactionStart] using insS_of_not_mem htS
  refine ⟨?_, hpend⟩
  have hrest_pend : ∀ x ∈ rest, x ∈ pendD d := by
    intro x hx
    rw [hp]
    exact List.mem_cons_of_mem _ hx
  refine
    { ndSub := h.ndSub
      ndStrt := by rw [hstrt]; simpa [List.nodup_append] using ⟨h.ndStrt, htS⟩
      ndDefk := h.ndDefk
      ndFin := h.ndFin
      pendSl := by
        rw [hpend]
        show rest.Sublist (subD d)
        exact (hrem ▸ remS_sublist (pendD d) t).trans h.pendSl
      strtSub := by
        rw [hstrt]
        intro x hx
        rcases List.mem_append.1 hx with hx | hx
        · exact h.strtSub x hx
        · simp only [List.mem_singleton] at hx
          subst hx
          exact htSub
      defkSub := h.defkSub
      finSub := h.finSub
      dPS := by
        rw [hpend, hstrt]
        intro x hx
        have hxp := hrest_pend x hx
        have hxt : x ≠ t := fun e => htR (e ▸ hx)
        simp only [List.mem_append, List.mem_singleton]
        rintro (hs | rfl)
        · exact h.dPS x hxp hs
        · exact hxt rfl
      dPD := by
        rw [hpend]
        intro x hx
        exact h.dPD x (hrest_pend x hx)
      dPF := by
        rw [hpend]
        intro x hx
        exact h.dPF x (hrest_pend x hx)
      dSD := by
        rw [hstrt]
        intro x hx hxd
        rcases List.mem_append.1 hx with hx | hx
        · exact h.dSD x hx hxd
        · simp only [List.mem_singleton] at hx
          subst hx
          exact absurd hxd htD
      dSF := by
        rw [hstrt]
        intro x hx
        rcases List.mem_append.1 hx with hx | hx
        · exact h.dSF x hx
        · simp only [List.mem_singleton] at hx
          subst hx
          exact htF
      dDF := h.dDF
      part := by
        rw [hpend, hstrt]
        intro x hx
        rcases h.part x hx with hq | hq | hq | hq
        · rw [hp] at hq
          rcases List.mem_cons.1 hq with rfl | hq
          · exact Or.inr (Or.inl (List.mem_append_right _ (List.mem_singleton_self _)))
          · exact Or.inl hq
        · exact Or.inr (Or.inl (List.mem_append_left _ hq))
        · exact Or.inr (Or.inr (Or.inl hq))
        · exact Or.inr (Or.inr (Or.inr hq))
      sdom := by
        intro x
        have hsa : { d with base := transactionStart { d.base with pending := remS d.base.pending t } t }.base.started_at
            = upd d.base.started_at t d.base.current_time := rfl
        rw [hsa, hstrt]
        by_cases hx : x = t
        · subst hx
          simp [look_upd_self]
        · rw [look_upd_ne _ _ hx, h.sdom x]
          constructor
          · rintro (hs | hf)
            · exact Or.inl (List.mem_append_left _ hs)
            · exact Or.inr hf
          · rintro (hs | hf)
            · rcases List.mem_append.1 hs with hs | hs
              · exact Or.inl hs
              · simp only [List.mem_singleton] at hs
                exact absurd hs hx
            · exact Or.inr hf
      evStrt := by simp
      evDefk := by simp
      evDeps := by simp
      rev := h.rev }

theorem transactionDefer_of_empty {d : DeferredState} {t : Transaction}
    (hc : conflictSet d t = []) : transactionDefer d t = (false, d) := by
  simp [transactionDefer, hc]

theorem transactionDefer_of_ne {d : DeferredState} {t : Transaction}
    (hc : conflictSet d t ≠ []) :
    transactionDefer d t = (true,
      { d with
        deferred_at := upd d.deferred_at t d.base.current_time
        depends_on := upd d.depends_on t (conflictSet d t)
        depended_by := (conflictSet d t).foldl
          (fun m o => upd m o (insS (lookD m o []) t)) d.depended_by }) := by
  simp [transactionDefer, hc]

/-- When the head of pending is deferred (non-empty conflict union), the
invariant survives and the pending list shrinks to the tail. -/
theorem winv_defer_step {d : DeferredState} (h : WInv d) {t : Transaction}
    {rest : List Transaction} (hp : pendD d = t :: rest)
    (hc : conflictSet { d with base := { d.base with pending := remS d.base.pending t } } t ≠ []) :
    WInv (transactionDefer { d with base := { d.base with pending := remS d.base.pending t } } t).2 ∧
    pendD (transactionDefer { d with base := { d.base with pending := remS d.base.pending t } } t).2 = rest := by
  obtain ⟨htSub, htS, htD, htF, htR, hrem⟩ := pend_head_facts h hp
  set d0 : DeferredState := { d with base := { d.base with pending := remS d.base.pending t } } with hd0
  set C : List Transaction := conflictSet d0 t with hC
  rw [transactionDefer_of_ne hc]
  set d' : DeferredState :=
    { d0 with
      deferred_at := upd d0.deferred_at t d0.base.current_time
      depends_on := upd d0.depends_on t C
      depended_by := C.foldl (fun m o => upd m o (insS (lookD m o []) t)) d0.depended_by } with hd'
  have hpend : pendD d' = rest := by
    show remS d.base.pending t = rest
    exact hrem
  have hdefk : defkD d' = defkD d ++ [t] := by
    show dom (upd d.depends_on t C) = defkD d ++ [t]
    exact dom_upd_of_not_mem _ htD
  have hdeps_t : depsD d' t = C := by
    show lookD (upd d.depends_on t C) t [] = C
    simp [lookD]
  have hdeps_ne : ∀ {x : Transaction}, x ≠ t → depsD d' x = depsD d x := by
    intro x hx
    show lookD (upd d.depends_on t C) x [] = lookD d.depends_on x []
    simp [lookD, look_upd_ne _ _ hx]
  have hdby : ∀ x : Transaction, dbyD d' x =
      if x ∈ C then insS (dbyD d x) t else dbyD d x := by
    intro x
    exact deferDby_look t C d.depended_by x
  have hrest_pend : ∀ x ∈ rest, x ∈ pendD d := by
    intro x hx
    rw [hp]
    exact List.mem_cons_of_mem _ hx
  refine ⟨?_, hpend⟩
  refine
    { ndSub := h.ndSub
      ndStrt := h.ndStrt
      ndDefk := by rw [hdefk]; simpa [List.nodup_append] using ⟨h.ndDefk, htD⟩
      ndFin := h.ndFin
      pendSl := by
        rw [hpend]
        show rest.Sublist (subD d)
        exact (hrem ▸ remS_sublist (pendD d) t).trans h.pendSl
      strtSub := h.strtSub
      defkSub := by
        rw [hdefk]
        intro x hx
        rcases List.mem_append.1 hx with hx | hx
        · exact h.defkSub x hx
        · simp only [List.mem_singleton] at hx
          subst hx
          exact htSub
      finSub := h.finSub
      dPS := by
        rw [hpend]
        intro x hx
        exact h.dPS x (hrest_pend x hx)
      dPD := by
        rw [hpend, hdefk]
        intro x hx
        have hxt : x ≠ t := fun e => htR (e ▸ hx)
        simp only [List.mem_append, List.mem_singleton]
        rintro (hd | rfl)
        · exact h.dPD x (hrest_pend x hx) hd
        · exact hxt rfl
      dPF := by
        rw [hpend]
        intro x hx
        exact h.dPF x (hrest_pend x hx)
      dSD := by
        rw [hdefk]
        intro x hx hxd
        rcases List.mem_append.1 hxd with hxd | hxd
        · exact h.dSD x hx hxd
        · simp only [List.mem_singleton] at hxd
          subst hxd
          exact absurd hx htS
      dSF := h.dSF
      dDF := by
        rw [hdefk]
        intro x hx
        rcases List.mem_append.1 hx with hx | hx
        · exact h.dDF x hx
        · simp only [List.mem_singleton] at hx
          subst hx
          exact htF
      part := by
        rw [hpend, hdefk]
        intro x hx
        rcases h.part x hx with hq | hq | hq | hq
        · rw [hp] at hq
          rcases List.mem_cons.1 hq with rfl | hq
          · exact Or.inr (Or.inr (Or.inl (List.mem_append_right _ (List.mem_singleton_self _))))
          · exact Or.inl hq
        · exact Or.inr (Or.inl hq)
        · exact Or.inr (Or.inr (Or.inl (List.mem_append_left _ hq)))
        · exact Or.inr (Or.inr (Or.inr hq))
      sdom := h.sdom
      evStrt := by simp
      evDefk := by simp
      evDeps := by simp
      rev := by
        intro x w hw
        rw [hdby x] at hw
        by_cases hxC : x ∈ C
        · rw [if_pos hxC] at hw
          rcases mem_insS.1 hw with hw | rfl
          · obtain ⟨hw1, hw2⟩ := h.rev x w hw
            have hwt : w ≠ t := fun e => htD (e ▸ hw1)
            rw [hdefk, hdeps_ne hwt]
            exact ⟨List.mem_append_left _ hw1, hw2⟩
          · rw [hdefk, hdeps_t]
            exact ⟨List.mem_append_right _ (List.mem_singleton_self _), hxC⟩
        · rw [if_neg hxC] at hw
          obtain ⟨hw1, hw2⟩ := h.rev x w hw
          have hwt : w ≠ t := fun e => htD (e ▸ hw1)
          rw [hdefk, hdeps_ne hwt]
          exact ⟨List.mem_append_left _ hw1, hw2⟩ }

theorem phase1Go_cons_start {d : DeferredState} {t : Transaction} (rest : List Transaction)
    (hc : conflictSet { d with base := { d.base with pending := remS d.base.pending t } } t = []) :
    phase1Go d (t :: rest) =
      ((phase1Go { d with base := transactionStart { d.base with pending := remS d.base.pending t } t } rest).1,
       t :: (phase1Go { d with base := transactionStart { d.base with pending := remS d.base.pending t } t } rest).2) := by
  simp only [phase1Go]
  rw [transactionDefer_of_empty hc]
  rfl

theorem phase1Go_cons_defer {d : DeferredState} {t : Transaction} (rest : List Transaction)
    (hc : conflictSet { d with base := { d.base with pending := remS d.base.pending t } } t ≠ []) :
    phase1Go d (t :: rest) =
      phase1Go (transactionDefer { d with base := { d.base with pending := remS d.base.pending t } } t).2 rest := by
  simp only [phase1Go]
  rw [transactionDefer_of_ne hc]
  rfl

/-- The first loop preserves the invariant, empties the pending set, starts
only snapshot members, and grows `started` (resp. the deferred key set) only
by its start events (resp. by snapshot members). -/
theorem winv_phase1Go :
    ∀ (l : List Transaction) (d : DeferredState), WInv d → pendD d = l →
      WInv (phase1Go d l).1 ∧ pendD (phase1Go d l).1 = [] ∧
      (∀ x ∈ (phase1Go d l).2, x ∈ l) ∧
      (∀ x ∈ strtD (phase1Go d l).1, x ∈ strtD d ∨ x ∈ (phase1Go d l).2) ∧
      (∀ x ∈ defkD (phase1Go d l).1, x ∈ defkD d ∨ x ∈ l) := by
  intro l
  induction l with
  | nil =>
    intro d h hp
    exact ⟨h, hp, by simp [phase1Go], fun x hx => Or.inl hx, fun x hx => Or.inl hx⟩
  | cons t rest ih =>
    intro d h hp
    obtain ⟨htSub, htS, htD, htF, htR, hrem⟩ := pend_head_facts h hp
    by_cases hc : conflictSet { d with base := { d.base with pending := remS d.base.pending t } } t = []
    · rw [phase1Go_cons_start rest hc]
      obtain ⟨h', hp'⟩ := winv_start_step h hp
      obtain ⟨ih1, ih2, ih3, ih4, ih5⟩ := ih _ h' hp'
      set dS : DeferredState :=
        { d with base := transactionStart { d.base with pending := remS d.base.pending t } t } with hdS
      have hstep : strtD dS = strtD d ++ [t] := by
        simpa [strtD, transactionStart] using insS_of_not_mem htS
      refine ⟨ih1, ih2, ?_, ?_, ?_⟩
      · show ∀ x ∈ t :: (phase1Go dS rest).2, x ∈ t :: rest
        intro x hx
        rcases List.mem_cons.1 hx with rfl | hx
        · exact List.mem_cons_self x rest
        · exact List.mem_cons_of_mem _ (ih3 x hx)
      · show ∀ x ∈ strtD (phase1Go dS rest).1, x ∈ strtD d ∨ x ∈ t :: (phase1Go dS rest).2
        intro x hx
        rcases ih4 x hx with hx' | hx'
        · rw [hstep] at hx'
          rcases List.mem_append.1 hx' with hx'' | hx''
          · exact Or.inl hx''
          · simp only [List.mem_singleton] at hx''
            subst hx''
            exact Or.inr (List.mem_cons_self x _)
        · exact Or.inr (List.mem_cons_of_mem _ hx')
      · show ∀ x ∈ defkD (phase1Go dS rest).1, x ∈ defkD d ∨ x ∈ t :: rest
        intro x hx
        rcases ih5 x hx with hx' | hx'
        · exact Or.inl hx'
        · exact Or.inr (List.mem_cons_of_mem _ hx')
    · rw [phase1Go_cons_defer rest hc]
      obtain ⟨h', hp'⟩ := winv_defer_step h hp hc
      obtain ⟨ih1, ih2, ih3, ih4, ih5⟩ := ih _ h' hp'
      set dD : DeferredState :=
        (transactionDefer { d with base := { d.base with pending := remS d.base.pending t } } t).2 with hdD
      have hsD : strtD dD = strtD d := by
        rw [hdD, transactionDefer_of_ne hc]
        rfl
      have hkD : defkD dD = defkD d ++ [t] := by
        rw [hdD, transactionDefer_of_ne hc]
        exact dom_upd_of_not_mem _ htD
      refine ⟨ih1, ih2, ?_, ?_, ?_⟩
      · exact fun x hx => List.mem_cons_of_mem _ (ih3 x hx)
      · intro x hx
        rcases ih4 x hx with hx' | hx'
        · exact Or.inl (hsD ▸ hx')
        · exact Or.inr hx'
      · intro x hx
        rcases ih5 x hx with hx' | hx'
        · rw [hkD] at hx'
          rcases List.mem_append.1 hx' with hx'' | hx''
          · exact Or.inl hx''
          · simp only [List.mem_singleton] at hx''
            subst hx''
            exact Or.inr (List.mem_cons_self x _)
        · exact Or.inr (List.mem_cons_of_mem _ hx')

/-! ### Preservation through the second loop of `_start_transactions` -/

/-- The `trigger_eager` condition of the second loop. -/
def p2Trigger (d : DeferredState) (t : Transaction) : Bool :=
  decide (d.max_defer_time > 0 ∧
    d.base.current_time - lookD d.deferred_at t 0 > d.max_defer_time)

/-- The state after the optional forced release of one loop iteration. -/
def p2Pre (d : DeferredState) (t : Transaction) : DeferredState :=
  if p2Trigger d t then forceRelease d t else d

theorem phase2Go_cons (d : DeferredState) (t : Transaction) (rest : List Transaction) :
    phase2Go d (t :: rest) =
      (if lookD (p2Pre d t).depends_on t [] = [] then
        ((phase2Go { p2Pre d t with base := transactionStart (p2Pre d t).base t } rest).1,
         t :: (phase2Go { p2Pre d t with base := transactionStart (p2Pre d t).base t } rest).2)
      else phase2Go (p2Pre d t) rest) := by
  simp only [phase2Go, p2Pre, p2Trigger]

/-- A forced release preserves the bookkeeping invariant and moves no
transaction between the lifecycle sets. -/
theorem p2inv_forceRelease {d : DeferredState} {ev : List Transaction} (h : P2Inv d ev)
    (t : Transaction) :
    P2Inv (forceRelease d t) ev ∧ defkD (forceRelease d t) = defkD d ∧
    pendD (forceRelease d t) = pendD d ∧ strtD (forceRelease d t) = strtD d := by
  have hdefk : defkD (forceRelease d t) = defkD d := by
    show dom (cutDeps (lookD d.depended_by t []) d.depends_on t) = defkD d
    exact cutDeps_dom t _ _ (fun w hw => (h.rev t w hw).1)
  have hdeps : ∀ w : Transaction, depsD (forceRelease d t) w =
      if w ∈ dbyD d t then remS (depsD d w) t else depsD d w := by
    intro w
    show lookD (cutDeps (lookD d.depended_by t []) d.depends_on t) w [] = _
    rw [lookD, cutDeps_look]
    simp only [dbyD, depsD, lookD]
    by_cases hw : w ∈ (look d.depended_by t).getD ([] : List Transaction)
    · simp [hw]
    · simp [hw]
  have hdby : ∀ x : Transaction, dbyD (forceRelease d t) x =
      if x = t then [] else dbyD d x := by
    intro x
    show lookD (delA d.depended_by t) x [] = _
    by_cases hx : x = t
    · subst hx
      simp [lookD, look_delA_self]
    · simp [hx, lookD, dbyD, look_delA_ne _ hx]
  refine ⟨?_, hdefk, rfl, rfl⟩
  refine
    { ndSub := h.ndSub, ndStrt := h.ndStrt
      ndDefk := by rw [hdefk]; exact h.ndDefk
      ndFin := h.ndFin, pendSl := h.pendSl, strtSub := h.strtSub
      defkSub := by rw [hdefk]; exact h.defkSub
      finSub := h.finSub, dPS := h.dPS
      dPD := by rw [hdefk]; exact h.dPD
      dPF := h.dPF
      dSD := by rw [hdefk]; exact h.dSD
      dSF := h.dSF
      dDF := by rw [hdefk]; exact h.dDF
      part := by
        intro x hx
        rcases h.part x hx with hq | hq | hq | hq
        · exact Or.inl hq
        · exact Or.inr (Or.inl hq)
        · exact Or.inr (Or.inr (Or.inl (hdefk ▸ hq)))
        · exact Or.inr (Or.inr (Or.inr hq))
      sdom := h.sdom
      evStrt := h.evStrt
      evDefk := by rw [hdefk]; exact h.evDefk
      evDeps := by
        intro x hx
        rw [hdeps x, h.evDeps x hx]
        by_cases hxb : x ∈ dbyD d t <;> simp [hxb, remS]
      rev := by
        intro x w hw
        rw [hdby x] at hw
        by_cases hx : x = t
        · rw [if_pos hx] at hw
          exact absurd hw (List.not_mem_nil w)
        · rw [if_neg hx] at hw
          obtain ⟨hw1, hw2⟩ := h.rev x w hw
          rw [hdefk, hdeps w]
          refine ⟨hw1, ?_⟩
          by_cases hwb : w ∈ dbyD d t
          · rw [if_pos hwb]
            exact mem_remS.2 ⟨hw2, hx⟩
          · rwa [if_neg hwb] }

/-- Starting a deferred transaction whose dependency set has emptied
preserves the invariant, with the started transaction joining `ev`. -/
theorem p2inv_start_step {d : DeferredState} {ev : List Transaction} (h : P2Inv d ev)
    {t : Transaction} (htD : t ∈ defkD d) (htE : t ∉ ev) (htdeps : depsD d t = []) :
    P2Inv { d with base := transactionStart d.base t } (ev ++ [t]) := by
  have htS : t ∉ strtD d := fun hs => htE (h.dSD t hs htD)
  have htF : t ∉ finD d := h.dDF t htD
  have htP : t ∉ pendD d := fun hp => h.dPD t hp htD
  have htSub : t ∈ subD d := h.defkSub t htD
  have hstrt : strtD { d with base := transactionStart d.base t } = strtD d ++ [t] := by
    simpa [strtD, transactionStart] using insS_of_not_mem htS
  refine
    { ndSub := h.ndSub
      ndStrt := by rw [hstrt]; simpa [List.nodup_append] using ⟨h.ndStrt, htS⟩
      ndDefk := h.ndDefk
      ndFin := h.ndFin
      pendSl := h.pendSl
      strtSub := by
        rw [hstrt]
        intro x hx
        rcases List.mem_append.1 hx with hx | hx
        · exact h.strtSub x hx
        · simp only [List.mem_singleton] at hx
          subst hx
          exact htSub
      defkSub := h.defkSub
      finSub := h.finSub
      dPS := by
        rw [hstrt]
        intro x hx
        have hxt : x ≠ t := fun e => htP (e ▸ hx)
        simp only [List.mem_append, List.mem_singleton]
        rintro (hs | rfl)
        · exact h.dPS x hx hs
        · exact hxt rfl
      dPD := h.dPD
      dPF := h.dPF
      dSD := by
        rw [hstrt]
        intro x hx hxd
        rcases List.mem_append.1 hx with hx | hx
        · exact List.mem_append_left _ (h.dSD x hx hxd)
        · simp only [List.mem_singleton] at hx
          subst hx
          exact List.mem_append_right _ (List.mem_singleton_self _)
      dSF := by
        rw [hstrt]
        intro x hx
        rcases List.mem_append.1 hx with hx | hx
        · exact h.dSF x hx
        · simp only [List.mem_singleton] at hx
          subst hx
          exact htF
      dDF := h.dDF
      part := by
        rw [hstrt]
        intro x hx
        rcases h.part x hx with hq | hq | hq | hq
        · exact Or.inl hq
        · exact Or.inr (Or.inl (List.mem_append_left _ hq))
        · exact Or.inr (Or.inr (Or.inl hq))
        · exact Or.inr (Or.inr (Or.inr hq))
      sdom := by
        intro x
        have hsa : { d with base := transactionStart d.base t }.base.started_at
            = upd d.base.started_at t d.base.current_time := rfl
        rw [hsa, hstrt]
        by_cases hx : x = t
        · subst hx
          simp [look_upd_self]
        · rw [look_upd_ne _ _ hx, h.sdom x]
          constructor
          · rintro (hs | hf)
            · exact Or.inl (List.mem_append_left _ hs)
            · exact Or.inr hf
          · rintro (hs | hf)
            · rcases List.mem_append.1 hs with hs | hs
              · exact Or.inl hs
              · simp only [List.mem_singleton] at hs
                exact absurd hs hx
            · exact Or.inr hf
      evStrt := by
        rw [hstrt]
        intro x hx
        rcases List.mem_append.1 hx with hx | hx
        · exact List.mem_append_left _ (h.evStrt x hx)
        · exact List.mem_append_right _ hx
      evDefk := by
        intro x hx
        rcases List.mem_append.1 hx with hx | hx
        · exact h.evDefk x hx
        · simp only [List.mem_singleton] at hx
          subst hx
          exact htD
      evDeps := by
        intro x hx
        rcases List.mem_append.1 hx with hx | hx
        · exact h.evDeps x hx
        · simp only [List.mem_singleton] at hx
          subst hx
          exact htdeps
      rev := h.rev }

/-- The second loop preserves the bookkeeping invariant, starting only
listed keys of `_depends_on`; the pending set is untouched and every newly
started transaction is recorded in the loop's `started` collection. -/
theorem p2inv_go :
    ∀ (l : List Transaction) (d : DeferredState) (ev : List Transaction),
      P2Inv d ev → (ev ++ l).Nodup → (∀ x ∈ l, x ∈ defkD d) →
      P2Inv (phase2Go d l).1 (ev ++ (phase2Go d l).2) ∧
      (ev ++ (phase2Go d l).2).Nodup ∧
      (∀ x ∈ (phase2Go d l).2, x ∈ l) ∧
      pendD (phase2Go d l).1 = pendD d ∧
      (∀ x ∈ strtD (phase2Go d l).1, x ∈ strtD d ∨ x ∈ (phase2Go d l).2) := by
  intro l
  induction l with
  | nil =>
    intro d ev h hnd _
    refine ⟨by simpa [phase2Go] using h, by simpa [phase2Go] using hnd,
      by simp [phase2Go], rfl, by simp [phase2Go]⟩
  | cons t rest ih =>
    intro d ev h hnd hl
    have htE : t ∉ ev := by
      intro hte
      have := List.disjoint_of_nodup_append hnd hte
      exact this (List.mem_cons_self t rest)
    obtain ⟨h1, hdefk1, hpend1, hstrt1⟩ :
        P2Inv (p2Pre d t) ev ∧ defkD (p2Pre d t) = defkD d ∧
        pendD (p2Pre d t) = pendD d ∧ strtD (p2Pre d t) = strtD d := by
      unfold p2Pre
      by_cases htr : p2Trigger d t = true
      · rw [if_pos htr]
        exact p2inv_forceRelease h t
      · rw [if_neg htr]
        exact ⟨h, rfl, rfl, rfl⟩
    rw [phase2Go_cons]
    by_cases hdem : lookD (p2Pre d t).depends_on t [] = []
    · rw [if_pos hdem]
      have htD1 : t ∈ defkD (p2Pre d t) := by
        rw [hdefk1]
        exact hl t (List.mem_cons_self t rest)
      have h2 : P2Inv { p2Pre d t with base := transactionStart (p2Pre d t).base t } (ev ++ [t]) :=
        p2inv_start_step h1 htD1 htE hdem
      have hnd2 : ((ev ++ [t]) ++ rest).Nodup := by
        rwa [List.append_assoc, List.singleton_append]
      have hl2 : ∀ x ∈ rest, x ∈ defkD { p2Pre d t with base := transactionStart (p2Pre d t).base t } := by
        intro x hx
        show x ∈ defkD (p2Pre d t)
        rw [hdefk1]
        exact hl x (List.mem_cons_of_mem _ hx)
      obtain ⟨ih1, ih2, ih3, ih4, ih5⟩ := ih _ (ev ++ [t]) h2 hnd2 hl2
      rw [List.append_assoc, List.singleton_append] at ih1 ih2
      set d2 : DeferredState := { p2Pre d t with base := transactionStart (p2Pre d t).base t }
      refine ⟨ih1, ih2, ?_, ?_, ?_⟩
      · show ∀ x ∈ t :: (phase2Go d2 rest).2, x ∈ t :: rest
        intro x hx
        rcases List.mem_cons.1 hx with rfl | hx
        · exact List.mem_cons_self x rest
        · exact List.mem_cons_of_mem _ (ih3 x hx)
      · show pendD (phase2Go d2 rest).1 = pendD d
        rw [ih4]
        show pendD (p2Pre d t) = pendD d
        exact hpend1
      · show ∀ x ∈ strtD (phase2Go d2 rest).1, x ∈ strtD d ∨ x ∈ t :: (phase2Go d2 rest).2
        intro x hx
        rcases ih5 x hx with hx' | hx'
        · have hmem : x ∈ strtD (p2Pre d t) ++ [t] := by
            have hstep : strtD d2 = strtD (p2Pre d t) ++ [t] := by
              have htS1 : t ∉ strtD (p2Pre d t) := fun hs => htE (h1.dSD t hs htD1)
              simpa [strtD, transactionStart] using insS_of_not_mem htS1
            rwa [hstep] at hx'
          rcases List.mem_append.1 hmem with hx'' | hx''
          · exact Or.inl (hstrt1 ▸ hx'')
          · simp only [List.mem_singleton] at hx''
            subst hx''
            exact Or.inr (List.mem_cons_self x _)
        · exact Or.inr (List.mem_cons_of_mem _ hx')
    · rw [if_neg hdem]
      have hnd2 : (ev ++ rest).Nodup :=
        ((List.sublist_cons_self t rest).append_left ev).nodup hnd
      have hl2 : ∀ x ∈ rest, x ∈ defkD (p2Pre d t) := by
        intro x hx
        rw [hdefk1]
        exact hl x (List.mem_cons_of_mem _ hx)
      obtain ⟨ih1, ih2, ih3, ih4, ih5⟩ := ih _ ev h1 hnd2 hl2
      refine ⟨ih1, ih2, ?_, ?_, ?_⟩
      · exact fun x hx => List.mem_cons_of_mem _ (ih3 x hx)
      · rw [ih4]
        exact hpend1
      · intro x hx
        rcases ih5 x hx with hx' | hx'
        · exact Or.inl (hstrt1 ▸ hx')
        · exact Or.inr hx'

/-! ### Deletion of the started entries, and the finish loop -/

theorem cut_depsD (d : DeferredState) (t w : Transaction) :
    lookD (cutDeps (lookD d.depended_by t []) d.depends_on t) w [] =
      if w ∈ dbyD d t then remS (depsD d w) t else depsD d w := by
  rw [lookD, cutDeps_look]
  simp only [dbyD, depsD, lookD]
  by_cases hw : w ∈ (look d.depended_by t).getD ([] : List Transaction)
  · simp [hw]
  · simp [hw]

theorem cut_defkD {d : DeferredState} {t : Transaction}
    (h : ∀ w ∈ dbyD d t, w ∈ defkD d) :
    dom (cutDeps (lookD d.depended_by t []) d.depends_on t) = defkD d :=
  cutDeps_dom t _ _ h

theorem del_dbyD (d : DeferredState) (t x : Transaction) :
    lookD (delA d.depended_by t) x [] = if x = t then [] else dbyD d x := by
  by_cases hx : x = t
  · subst hx
    simp [lookD, look_delA_self]
  · simp [hx, lookD, dbyD, look_delA_ne _ hx]

/-- Deleting the `_depends_on` entries of the transactions started by the
second loop restores the between-operations invariant. -/
theorem p2inv_delete :
    ∀ (ev : List Transaction) (d : DeferredState), P2Inv d ev → ev.Nodup →
      WInv { d with depends_on := ev.foldl delA d.depends_on } := by
  intro ev
  induction ev with
  | nil =>
    intro d h _
    exact h
  | cons e rest ih =>
    intro d h hnd
    have heS : e ∈ strtD d := h.evStrt e (List.mem_cons_self e rest)
    have heD : e ∈ defkD d := h.evDefk e (List.mem_cons_self e rest)
    have heDeps : depsD d e = [] := h.evDeps e (List.mem_cons_self e rest)
    have heR : e ∉ rest := (List.nodup_cons.1 hnd).1
    have hndr : rest.Nodup := (List.nodup_cons.1 hnd).2
    set d1 : DeferredState := { d with depends_on := delA d.depends_on e } with hd1
    have hfold : { d with depends_on := (e :: rest).foldl delA d.depends_on } =
        { d1 with depends_on := rest.foldl delA d1.depends_on } := rfl
    rw [hfold]
    refine ih d1 ?_ hndr
    have hdefk1 : ∀ x : Transaction, x ∈ defkD d1 ↔ x ∈ defkD d ∧ x ≠ e := by
      intro x
      exact mem_dom_delA
    have hdeps1 : ∀ {x : Transaction}, x ≠ e → depsD d1 x = depsD d x := by
      intro x hx
      show lookD (delA d.depends_on e) x [] = _
      simp [lookD, depsD, look_delA_ne _ hx]
    refine
      { ndSub := h.ndSub, ndStrt := h.ndStrt
        ndDefk := by
          show (dom (delA d.depends_on e)).Nodup
          rw [dom_delA]
          exact h.ndDefk.filter _
        ndFin := h.ndFin, pendSl := h.pendSl, strtSub := h.strtSub
        defkSub := fun x hx => h.defkSub x ((hdefk1 x).1 hx).1
        finSub := h.finSub, dPS := h.dPS
        dPD := fun x hx hxd => h.dPD x hx ((hdefk1 x).1 hxd).1
        dPF := h.dPF
        dSD := by
          intro x hx hxd
          obtain ⟨hxd', hxe⟩ := (hdefk1 x).1 hxd
          rcases List.mem_cons.1 (h.dSD x hx hxd') with rfl | hr
          · exact absurd rfl hxe
          · exact hr
        dSF := h.dSF
        dDF := fun x hx => h.dDF x ((hdefk1 x).1 hx).1
        part := by
          intro x hx
          rcases h.part x hx with hq | hq | hq | hq
          · exact Or.inl hq
          · exact Or.inr (Or.inl hq)
          · by_cases hxe : x = e
            · subst hxe
              exact Or.inr (Or.inl heS)
            · exact Or.inr (Or.inr (Or.inl ((hdefk1 x).2 ⟨hq, hxe⟩)))
          · exact Or.inr (Or.inr (Or.inr hq))
        sdom := h.sdom
        evStrt := fun x hx => h.evStrt x (List.mem_cons_of_mem _ hx)
        evDefk := by
          intro x hx
          have hxe : x ≠ e := fun hc => heR (hc ▸ hx)
          exact (hdefk1 x).2 ⟨h.evDefk x (List.mem_cons_of_mem _ hx), hxe⟩
        evDeps := by
          intro x hx
          have hxe : x ≠ e := fun hc => heR (hc ▸ hx)
          rw [hdeps1 hxe]
          exact h.evDeps x (List.mem_cons_of_mem _ hx)
        rev := by
          intro x w hw
          obtain ⟨hw1, hw2⟩ := h.rev x w hw
          have hwe : w ≠ e := by
            intro hc
            subst hc
            rw [heDeps] at hw2
            exact List.not_mem_nil x hw2
          rw [hdeps1 hwe]
          exact ⟨(hdefk1 w).2 ⟨hw1, hwe⟩, hw2⟩ }

/-- The overridden finish preserves the between-operations invariant. -/
theorem winv_deferredFinish {d : DeferredState} (h : WInv d) {t : Transaction}
    (ht : t ∈ strtD d) : WInv (deferredFinish d t) := by
  have htF : t ∉ finD d := h.dSF t ht
  have htD : t ∉ defkD d := fun hd => List.not_mem_nil t (h.dSD t ht hd)
  have htP : t ∉ pendD d := fun hp => h.dPS t hp ht
  have htSub : t ∈ subD d := h.strtSub t ht
  set d' : DeferredState := deferredFinish d t with hd'
  have hsub : subD d' = subD d := by
    show dom (transactionFinish d.base t).submitted_at = _
    rw [finish_submitted_at]
    rfl
  have hpend : pendD d' = pendD d := by
    show (transactionFinish d.base t).pending = _
    rw [finish_pending]
    rfl
  have hstrt : strtD d' = remS (strtD d) t := by
    show (transactionFinish d.base t).started = _
    rw [finish_started]
    rfl
  have hfin : finD d' = finD d ++ [t] := by
    show dom (transactionFinish d.base t).finished_at = _
    rw [finish_finished_at]
    exact dom_upd_of_not_mem _ htF
  have hsat : d'.base.started_at = d.base.started_at := by
    show (transactionFinish d.base t).started_at = _
    rw [finish_started_at]
  have hdefk : defkD d' = defkD d := by
    show dom (cutDeps (lookD d.depended_by t []) d.depends_on t) = _
    exact cut_defkD (fun w hw => (h.rev t w hw).1)
  have hdeps : ∀ w : Transaction, depsD d' w =
      if w ∈ dbyD d t then remS (depsD d w) t else depsD d w := by
    intro w
    show lookD (cutDeps (lookD d.depended_by t []) d.depends_on t) w [] = _
    exact cut_depsD d t w
  have hdby : ∀ x : Transaction, dbyD d' x = if x = t then [] else dbyD d x := by
    intro x
    show lookD (delA d.depended_by t) x [] = _
    exact del_dbyD d t x
  refine
    { ndSub := by rw [hsub]; exact h.ndSub
      ndStrt := by rw [hstrt]; exact h.ndStrt.filter _
      ndDefk := by rw [hdefk]; exact h.ndDefk
      ndFin := by rw [hfin]; simpa [List.nodup_append] using ⟨h.ndFin, htF⟩
      pendSl := by rw [hpend, hsub]; exact h.pendSl
      strtSub := by
        rw [hstrt, hsub]
        intro x hx
        exact h.strtSub x (mem_remS.1 hx).1
      defkSub := by
        rw [hdefk, hsub]
        exact h.defkSub
      finSub := by
        rw [hfin, hsub]
        intro x hx
        rcases List.mem_append.1 hx with hx | hx
        · exact h.finSub x hx
        · simp only [List.mem_singleton] at hx
          subst hx
          exact htSub
      dPS := by
        rw [hpend, hstrt]
        intro x hx hxs
        exact h.dPS x hx (mem_remS.1 hxs).1
      dPD := by
        rw [hpend, hdefk]
        exact h.dPD
      dPF := by
        rw [hpend, hfin]
        intro x hx
        have hxt : x ≠ t := fun e => htP (e ▸ hx)
        simp only [List.mem_append, List.mem_singleton]
        rintro (hf | rfl)
        · exact h.dPF x hx hf
        · exact hxt rfl
      dSD := by
        rw [hstrt, hdefk]
        intro x hx
        exact h.dSD x (mem_remS.1 hx).1
      dSF := by
        rw [hstrt, hfin]
        intro x hx
        obtain ⟨hxs, hxt⟩ := mem_remS.1 hx
        simp only [List.mem_append, List.mem_singleton]
        rintro (hf | rfl)
        · exact h.dSF x hxs hf
        · exact hxt rfl
      dDF := by
        rw [hdefk, hfin]
        intro x hx
        have hxt : x ≠ t := fun e => htD (e ▸ hx)
        simp only [List.mem_append, List.mem_singleton]
        rintro (hf | rfl)
        · exact h.dDF x hx hf
        · exact hxt rfl
      part := by
        rw [hsub, hpend, hstrt, hdefk, hfin]
        intro x hx
        rcases h.part x hx with hq | hq | hq | hq
        · exact Or.inl hq
        · by_cases hxt : x = t
          · subst hxt
            exact Or.inr (Or.inr (Or.inr (List.mem_append_right _ (List.mem_singleton_self _))))
          · exact Or.inr (Or.inl (mem_remS.2 ⟨hq, hxt⟩))
        · exact Or.inr (Or.inr (Or.inl hq))
        · exact Or.inr (Or.inr (Or.inr (List.mem_append_left _ hq)))
      sdom := by
        rw [hstrt, hfin]
        intro x
        rw [show d'.base.started_at = d.base.started_at from hsat, h.sdom x]
        by_cases hxt : x = t
        · subst hxt
          simp [ht, htF]
        · constructor
          · rintro (hs | hf)
            · exact Or.inl (mem_remS.2 ⟨hs, hxt⟩)
            · exact Or.inr (List.mem_append_left _ hf)
          · rintro (hs | hf)
            · exact Or.inl (mem_remS.1 hs).1
            · rcases List.mem_append.1 hf with hf | hf
              · exact Or.inr hf
              · simp only [List.mem_singleton] at hf
                exact absurd hf hxt
      evStrt := by simp
      evDefk := by simp
      evDeps := by simp
      rev := by
        intro x w hw
        rw [hdby x] at hw
        by_cases hxt : x = t
        · rw [if_pos hxt] at hw
          exact absurd hw (List.not_mem_nil w)
        · rw [if_neg hxt] at hw
          obtain ⟨hw1, hw2⟩ := h.rev x w hw
          rw [hdefk, hdeps w]
          refine ⟨hw1, ?_⟩
          by_cases hwb : w ∈ dbyD d t
          · rw [if_pos hwb]
            exact mem_remS.2 ⟨hw2, hxt⟩
          · rwa [if_neg hwb] }

theorem deferredFinishGo_pending :
    ∀ (l : List Transaction) (d : DeferredState),
      (deferredFinishGo d l).base.pending = d.base.pending := by
  intro l
  induction l with
  | nil => intro d; rfl
  | cons t rest ih =>
    intro d
    show (deferredFinishGo (deferredFinish d t) rest).base.pending = _
    rw [ih]
    show (transactionFinish d.base t).pending = _
    rw [finish_pending]

/-- The finish loop preserves the between-operations invariant. -/
theorem winv_finishGo :
    ∀ (l : List Transaction) (d : DeferredState), WInv d →
      (∀ x ∈ l, x ∈ strtD d) → l.Nodup → WInv (deferredFinishGo d l) := by
  intro l
  induction l with
  | nil =>
    intro d h _ _
    exact h
  | cons t rest ih =>
    intro d h hl hnd
    have ht : t ∈ strtD d := hl t (List.mem_cons_self t rest)
    have h' := winv_deferredFinish h ht
    refine ih (deferredFinish d t) h' ?_ (List.nodup_cons.1 hnd).2
    intro x hx
    have hxs : x ∈ strtD d := hl x (List.mem_cons_of_mem _ hx)
    have hxt : x ≠ t := fun e => (List.nodup_cons.1 hnd).1 (e ▸ hx)
    show x ∈ (transactionFinish d.base t).started
    rw [finish_started]
    exact mem_remS.2 ⟨hxs, hxt⟩

/-! ### One full clock call of the deferred policy -/

/-- Specification of one instrumented `clock` call of the deferred policy:
the invariant is preserved, pending is drained, start events come only from
pending or the deferred key set, and finish events only from transactions
started before or during the call. -/
theorem deferredClockEv_spec {d : DeferredState} (h : WInv d) (now : ℚ) :
    WInv (deferredClockEv d now).1 ∧
    pendD (deferredClockEv d now).1 = [] ∧
    (∀ x ∈ (deferredClockEv d now).2.1, x ∈ pendD d ∨ x ∈ defkD d) ∧
    (∀ x ∈ (deferredClockEv d now).2.2, x ∈ strtD d ∨ x ∈ (deferredClockEv d now).2.1) := by
  set dA : DeferredState := { d with base := { d.base with current_time := now } } with hdA
  have hA : WInv dA := winv_setTime h now
  obtain ⟨h1, hp1, he1, hs1, hk1⟩ := winv_phase1Go (pendD dA) dA hA rfl
  set p1 := phase1Go dA (pendD dA) with hp1def
  obtain ⟨h2, hnd2, he2, hpd2, hs2⟩ :=
    p2inv_go (defkD p1.1) p1.1 [] h1 (by simpa using h1.ndDefk) (fun x hx => hx)
  rw [List.nil_append] at h2 hnd2
  set p2 := phase2Go p1.1 (defkD p1.1) with hp2def
  set dDel : DeferredState := { p2.1 with depends_on := p2.2.foldl delA p2.1.depends_on } with hdDel
  have hDel : WInv dDel := p2inv_delete p2.2 p2.1 h2 hnd2
  set due := dDel.base.started.filter (fun t => dueNow dDel.base t) with hdue
  have hdueS : ∀ x ∈ due, x ∈ strtD dDel := fun x hx => (List.mem_filter.1 hx).1
  have hdueN : due.Nodup := hDel.ndStrt.filter _
  have hfinW : WInv (deferredFinishGo dDel due) := winv_finishGo due dDel hDel hdueS hdueN
  have hEv : deferredClockEv d now = (deferredFinishGo dDel due, p1.2 ++ p2.2, due) := rfl
  rw [hEv]
  refine ⟨hfinW, ?_, ?_, ?_⟩
  · show pendD (deferredFinishGo dDel due) = []
    show (deferredFinishGo dDel due).base.pending = []
    rw [deferredFinishGo_pending]
    show pendD p2.1 = []
    rw [hpd2]
    exact hp1
  · intro x hx
    rcases List.mem_append.1 hx with hx | hx
    · exact Or.inl (he1 x hx)
    · rcases hk1 x (he2 x hx) with hk | hk
      · exact Or.inr hk
      · exact Or.inl hk
  · intro x hx
    have hx1 : x ∈ strtD dDel := hdueS x hx
    have hx2 : x ∈ strtD p2.1 := hx1
    rcases hs2 x hx2 with hx3 | hx3
    · rcases hs1 x hx3 with hx4 | hx4
      · exact Or.inl hx4
      · exact Or.inr (List.mem_append_left _ hx4)
    · exact Or.inr (List.mem_append_right _ hx3)

/-! ### The eager policy's clock -/

theorem eagerGo_pending_sub :
    ∀ (l : List Transaction) (s : BaseState),
      ∀ x ∈ (eagerGo s l).pending, x ∈ s.pending ∧ x ∉ l := by
  intro l
  induction l with
  | nil =>
    intro s x hx
    exact ⟨hx, List.not_mem_nil x⟩
  | cons t rest ih =>
    intro s x hx
    obtain ⟨hx1, hx2⟩ := ih _ x hx
    have hx1' : x ∈ remS s.pending t := hx1
    obtain ⟨hx3, hx4⟩ := mem_remS.1 hx1'
    exact ⟨hx3, by simp [hx2, hx4]⟩

theorem eagerGo_self_pending (s : BaseState) : (eagerGo s s.pending).pending = [] :=
  List.eq_nil_iff_forall_not_mem.2 fun x hx =>
    ((eagerGo_pending_sub s.pending s x hx).2 (eagerGo_pending_sub s.pending s x hx).1).elim

theorem baseFinishGo_started_at :
    ∀ (l : List Transaction) (s : BaseState),
      (baseFinishGo s l).started_at = s.started_at := by
  intro l
  induction l with
  | nil => intro s; rfl
  | cons t rest ih =>
    intro s
    show (baseFinishGo (transactionFinish s t) rest).started_at = _
    rw [ih, finish_started_at]

theorem baseFinishGo_current_time :
    ∀ (l : List Transaction) (s : BaseState),
      (baseFinishGo s l).current_time = s.current_time := by
  intro l
  induction l with
  | nil => intro s; rfl
  | cons t rest ih =>
    intro s
    show (baseFinishGo (transactionFinish s t) rest).current_time = _
    rw [ih, finish_current_time]

theorem baseFinishGo_pending :
    ∀ (l : List Transaction) (s : BaseState),
      (baseFinishGo s l).pending = s.pending := by
  intro l
  induction l with
  | nil => intro s; rfl
  | cons t rest ih =>
    intro s
    show (baseFinishGo (transactionFinish s t) rest).pending = _
    rw [ih, finish_pending]

theorem baseFinishGo_started_sub :
    ∀ (l : List Transaction) (s : BaseState),
      ∀ x ∈ (baseFinishGo s l).started, x ∈ s.started ∧ x ∉ l := by
  intro l
  induction l with
  | nil =>
    intro s x hx
    exact ⟨hx, List.not_mem_nil x⟩
  | cons t rest ih =>
    intro s x hx
    obtain ⟨hx1, hx2⟩ := ih _ x hx
    rw [finish_started] at hx1
    obtain ⟨hx3, hx4⟩ := mem_remS.1 hx1
    exact ⟨hx3, by simp [hx2, hx4]⟩

/-- After an eager clock call, pending is empty and no remaining started
transaction is due at the same time. -/
theorem eagerClock_post (s : BaseState) (now : ℚ) :
    (eagerClock s now).pending = [] ∧
    (eagerClock s now).current_time = now ∧
    (∀ x ∈ (eagerClock s now).started, dueNow (eagerClock s now) x = false) := by
  set s1 : BaseState := { s with current_time := now } with hs1
  set s2 : BaseState := eagerGo s1 s1.pending with hs2
  set due := s2.started.filter (fun t => dueNow s2 t) with hduedef
  have hEv : eagerClock s now = baseFinishGo s2 due := rfl
  rw [hEv]
  refine ⟨?_, ?_, ?_⟩
  · rw [baseFinishGo_pending]
    exact eagerGo_self_pending s1
  · rw [baseFinishGo_current_time]
    show s2.current_time = now
    have : ∀ (l : List Transaction) (u : BaseState),
        (eagerGo u l).current_time = u.current_time := by
      intro l
      induction l with
      | nil => intro u; rfl
      | cons a rest ih => intro u; exact ih _
    rw [hs2, this]
  · intro x hx
    obtain ⟨hx1, hx2⟩ := baseFinishGo_started_sub due s2 x hx
    have hnd : dueNow s2 x = false := by
      by_contra hcon
      have : dueNow s2 x = true := by
        cases hdn : dueNow s2 x
        · exact absurd hdn hcon
        · rfl
      exact hx2 (List.mem_filter.2 ⟨hx1, this⟩)
    have heq : dueNow (baseFinishGo s2 due) x = dueNow s2 x := by
      unfold dueNow
      rw [baseFinishGo_started_at, baseFinishGo_current_time]
    rw [heq]
    exact hnd

/-! ## Claim C8: calling `tick` again at the same time re-fires nothing -/

/-- Claim C8: for a reachable (invariant-satisfying) deferred state, a second
`clock` call at the same time invokes `_transaction_start` only on
transactions with no recorded start and `_transaction_finish` only on
transactions with no recorded finish (so no transition fires twice); the
eager policy's second call fires no transition at all, and the reference
policy's clock is literally idempotent. -/
theorem tick_idempotent (d : DeferredState) (hW : WInv d) (tD : ℚ)
    (s : BaseState) (tE : ℚ) (r : RefState) (tR : ℚ) :
    (∀ tx ∈ (deferredClockEv (deferredClock d tD) tD).2.1,
      look (deferredClock d tD).base.started_at tx = none) ∧
    (∀ tx ∈ (deferredClockEv (deferredClock d tD) tD).2.2,
      look (deferredClock d tD).base.finished_at tx = none) ∧
    (eagerClockEv (eagerClock s tE) tE).2.1 = [] ∧
    (eagerClockEv (eagerClock s tE) tE).2.2 = [] ∧
    refClock (refClock r tR) tR = refClock r tR := by
  obtain ⟨h1, hp1, _, _⟩ := deferredClockEv_spec hW tD
  set d1 : DeferredState := deferredClock d tD with hd1
  have h1' : WInv d1 := h1
  have hp1' : pendD d1 = [] := hp1
  obtain ⟨_, _, hst2, hfi2⟩ := deferredClockEv_spec h1' tD
  have hstarts : ∀ tx ∈ (deferredClockEv d1 tD).2.1, tx ∈ defkD d1 := by
    intro tx htx
    rcases hst2 tx htx with hx | hx
    · rw [hp1'] at hx
      exact absurd hx (List.not_mem_nil tx)
    · exact hx
  refine ⟨?_, ?_, ?_, ?_, rfl⟩
  · intro tx htx
    have hdk : tx ∈ defkD d1 := hstarts tx htx
    have hnotS : tx ∉ strtD d1 := fun hs => List.not_mem_nil tx (h1'.dSD tx hs hdk)
    have hnotF : tx ∉ finD d1 := h1'.dDF tx hdk
    have : ¬ (look d1.base.started_at tx).isSome := by
      rw [h1'.sdom tx]
      rintro (hs | hf)
      · exact hnotS hs
      · exact hnotF hf
    cases hlk : look d1.base.started_at tx
    · rfl
    · rw [hlk] at this
      exact absurd rfl this
  · intro tx htx
    have hnotF : tx ∉ finD d1 := by
      rcases hfi2 tx htx with hx | hx
      · exact h1'.dSF tx hx
      · exact h1'.dDF tx (hstarts tx hx)
    exact (look_eq_none_iff_not_mem_dom _ tx).2 hnotF
  · show ({ eagerClock s tE with current_time := tE }).pending = []
    show (eagerClock s tE).pending = []
    exact (eagerClock_post s tE).1
  · have hpend0 : ({ eagerClock s tE with current_time := tE } : BaseState).pending = [] :=
      (eagerClock_post s tE).1
    set y1 : BaseState := { eagerClock s tE with current_time := tE } with hy1
    show (eagerGo y1 y1.pending).started.filter (fun t => dueNow (eagerGo y1 y1.pending) t) = []
    rw [hpend0]
    show y1.started.filter (fun t => dueNow y1 t) = []
    have hy1t : y1.current_time = (eagerClock s tE).current_time := by
      rw [hy1, (eagerClock_post s tE).2.1]
    have hdue : ∀ x ∈ y1.started, dueNow y1 x = false := by
      intro x hx
      have hx' : x ∈ (eagerClock s tE).started := hx
      have := (eagerClock_post s tE).2.2 x hx'
      unfold dueNow at this ⊢
      rwa [show y1.started_at = (eagerClock s tE).started_at from rfl, hy1t]
    exact List.filter_eq_nil_iff.2 fun x hx => by simp [hdue x hx]

/-- Concrete instance of `tick_idempotent` at the empty initial states. -/
theorem tick_idempotent_witness :
    WInv (initDeferred 0) ∧
    ((∀ tx ∈ (deferredClockEv (deferredClock (initDeferred 0) 1) 1).2.1,
      look (deferredClock (initDeferred 0) 1).base.started_at tx = none) ∧
    (eagerClockEv (eagerClock initBase 1) 1).2.1 = [] ∧
    (eagerClockEv (eagerClock initBase 1) 1).2.2 = [] ∧
    refClock (refClock initRef 1) 1 = refClock initRef 1) := by
  have h := tick_idempotent (initDeferred 0) (winv_init 0) 1 initBase 1 initRef 1
  exact ⟨winv_init 0, h.1, h.2.2.1, h.2.2.2.1, h.2.2.2.2⟩

/-! ## Per-key order reasoning: list surgery helpers -/

/-- Split a list at an element: positions before a given member. -/
theorem mem_split_decomp {α : Type} {l : List α} {a : α} (h : a ∈ l) :
    ∃ P S, l = P ++ a :: S := by
  induction l with
  | nil => exact absurd h (List.not_mem_nil a)
  | cons b rest ih =>
    rcases List.mem_cons.1 h with rfl | h
    · exact ⟨[], rest, rfl⟩
    · obtain ⟨P, S, hPS⟩ := ih h
      exact ⟨b :: P, S, by rw [hPS]; rfl⟩

/-- In a duplicate-free list, the decomposition at an element is unique. -/
theorem decomp_unique {α : Type} :
    ∀ {P P' S S' : List α} {t : α}, (P ++ t :: S).Nodup →
      P ++ t :: S = P' ++ t :: S' → P = P' ∧ S = S' := by
  intro P
  induction P with
  | nil =>
    intro P' S S' t hnd he
    rw [List.nil_append] at hnd he
    cases P' with
    | nil =>
      rw [List.nil_append, List.cons.injEq] at he
      exact ⟨rfl, he.2⟩
    | cons p' rest' =>
      rw [List.cons_append, List.cons.injEq] at he
      obtain ⟨rfl, he2⟩ := he
      rw [List.nodup_cons] at hnd
      exact absurd (he2 ▸ List.mem_append_right rest' (List.mem_cons_self t S')) hnd.1
  | cons p P ih =>
    intro P' S S' t hnd he
    rw [List.cons_append, List.nodup_cons] at hnd
    cases P' with
    | nil =>
      rw [List.cons_append, List.nil_append, List.cons.injEq] at he
      obtain ⟨rfl, he2⟩ := he
      exact absurd (he2.symm ▸ List.mem_append_right P (List.mem_cons_self p S)) hnd.1
    | cons p' rest' =>
      rw [List.cons_append, List.cons_append, List.cons.injEq] at he
      obtain ⟨rfl, he2⟩ := he
      obtain ⟨hP, hS⟩ := ih hnd.2 he2
      exact ⟨by rw [hP], hS⟩

/-- Transfer a decomposition across an append of a fresh element. -/
theorem append_singleton_decomp {α : Type} {sub P S : List α} {tx c : α}
    (hne : tx ≠ c) (hdec : sub ++ [c] = P ++ tx :: S) :
    ∃ S', S = S' ++ [c] ∧ sub = P ++ tx :: S' := by
  cases hS : S.eq_nil_or_concat with
  | inl hnil =>
    subst hnil
    have := List.append_inj' hdec (by simp)
    exact absurd (List.cons.injEq .. ▸ this.2).1 (Ne.symm hne)
  | inr hcon =>
    obtain ⟨S', b, rfl⟩ := hcon
    simp only [List.concat_eq_append] at hdec ⊢
    rw [show P ++ tx :: (S' ++ [b]) = (P ++ tx :: S') ++ [b] by simp] at hdec
    have := List.append_inj' hdec rfl
    obtain ⟨h1, h2⟩ := this
    simp only [List.cons.injEq] at h2
    exact ⟨S', by rw [h2.1], h1⟩

/-- A decomposition of `sub ++ [t]` at a fresh `t` is at the very end. -/
theorem fresh_append_decomp {α : Type} {sub P S : List α} {t : α}
    (ht : t ∉ sub) (h : sub ++ [t] = P ++ t :: S) : P = sub ∧ S = [] := by
  cases hS : S.eq_nil_or_concat with
  | inl hnil =>
    subst hnil
    have := List.append_inj' h (by simp)
    exact ⟨this.1.symm, rfl⟩
  | inr hcon =>
    obtain ⟨S', b, rfl⟩ := hcon
    simp only [List.concat_eq_append] at h
    rw [show P ++ t :: (S' ++ [b]) = (P ++ t :: S') ++ [b] by simp] at h
    have := List.append_inj' h rfl
    exact absurd (this.1 ▸ List.mem_append_right P (List.mem_cons_self t S')) ht

/-- Two distinct members order themselves: one is in the prefix of the
other's decomposition. -/
theorem mem_mem_decomp {α : Type} :
    ∀ {l : List α} {a b : α}, a ∈ l → b ∈ l → a ≠ b →
      (∃ P S, l = P ++ a :: S ∧ b ∈ P) ∨ (∃ P S, l = P ++ b :: S ∧ a ∈ P) := by
  intro l
  induction l with
  | nil => intro a b ha _ _; exact absurd ha (List.not_mem_nil a)
  | cons c rest ih =>
    intro a b ha hb hne
    rcases List.mem_cons.1 ha with rfl | ha'
    · have hb' : b ∈ rest := by
        rcases List.mem_cons.1 hb with h | h
        · exact absurd h.symm hne
        · exact h
      obtain ⟨P, S, hPS⟩ := mem_split_decomp hb'
      exact Or.inr ⟨a :: P, S, by rw [hPS]; rfl, List.mem_cons_self a P⟩
    · rcases List.mem_cons.1 hb with rfl | hb'
      · obtain ⟨P, S, hPS⟩ := mem_split_decomp ha'
        exact Or.inl ⟨b :: P, S, by rw [hPS]; rfl, List.mem_cons_self b P⟩
      · rcases ih ha' hb' hne with ⟨P, S, hPS, hm⟩ | ⟨P, S, hPS, hm⟩
        · exact Or.inl ⟨c :: P, S, by rw [hPS]; rfl, List.mem_cons_of_mem _ hm⟩
        · exact Or.inr ⟨c :: P, S, by rw [hPS]; rfl, List.mem_cons_of_mem _ hm⟩

/-- The tail of a sublist starting at `t` embeds into the part of the host
after `t`'s (unique) occurrence. -/
theorem sublist_cons_decomp {α : Type} :
    ∀ {P : List α} {t : α} {rest S : List α}, (P ++ t :: S).Nodup →
      (t :: rest).Sublist (P ++ t :: S) → rest.Sublist S := by
  intro P
  induction P with
  | nil =>
    intro t rest S hnd hsl
    rw [List.nil_append] at hnd hsl
    cases hsl with
    | cons _ h =>
      rw [List.nodup_cons] at hnd
      exact absurd (h.subset (List.mem_cons_self t rest)) hnd.1
    | cons₂ _ h => exact h
  | cons p P ih =>
    intro t rest S hnd hsl
    rw [List.cons_append] at hnd hsl
    have hpt : t ≠ p := by
      rw [List.nodup_cons] at hnd
      intro he
      exact hnd.1 (he ▸ List.mem_append_right P (List.mem_cons_self t S))
    cases hsl with
    | cons _ h => exact ih (List.nodup_cons.1 hnd).2 h
    | cons₂ _ h => exact absurd rfl hpt

/-! ## The per-key effect semantics -/

/-- The store effect of finishing one transaction (READ leaves the value,
OVERWRITE blindly zeroes, INCREASE adds one to the snapshot, which under
serial execution is the previous value). -/
def effStep (v : Int) (ty : TransactionType) : Int :=
  match ty with
  | .GET => v
  | .OVERWRITE => 0
  | .INCREASE => v + 1

/-- Value of a key after serially applying a list of same-key transactions
to the initial 0. -/
def effFold (l : List Transaction) : Int :=
  l.foldl (fun v t => effStep v t.type) 0

theorem effFold_append (l : List Transaction) (t : Transaction) :
    effFold (l ++ [t]) = effStep (effFold l) t.type := by
  simp [effFold, List.foldl_append]

/-! ## The key-order invariant of the deferred policy (no latency bound) -/

theorem nodup_decomp_facts {sub P S : List Transaction} {t : Transaction}
    (hnd : sub.Nodup) (hdec : sub = P ++ t :: S) : t ∉ P ∧ t ∉ S := by
  subst hdec
  rw [List.nodup_append] at hnd
  exact ⟨fun hp => hnd.2.2 hp (List.mem_cons_self t S), (List.nodup_cons.1 hnd.2.1).1⟩

/-- When every same-key transaction before `t` is finished and none at or
after `t` is, the finished same-key sub-sequence is exactly `t`'s same-key
prefix. -/
theorem filter_fin_eq_preds {sub P S fin : List Transaction} {t : Transaction}
    (hdec : sub = P ++ t :: S)
    (hPfin : ∀ e ∈ P, e.key = t.key → e ∈ fin)
    (htfin : t ∉ fin)
    (hSfin : ∀ e ∈ S, e.key = t.key → e ∉ fin) :
    sub.filter (fun x => decide (x.key = t.key ∧ x ∈ fin)) =
      P.filter (fun e => decide (e.key = t.key)) := by
  subst hdec
  rw [List.filter_append, List.filter_cons]
  have ht : (decide (t.key = t.key ∧ t ∈ fin)) = false := by simp [htfin]
  rw [ht]
  have hS : S.filter (fun x => decide (x.key = t.key ∧ x ∈ fin)) = [] :=
    List.filter_eq_nil_iff.2 fun x hx => by
      simp only [decide_eq_true_eq, not_and]
      exact fun hk => hSfin x hx hk
  rw [hS]
  simp only [Bool.false_eq_true, if_false, List.append_nil]
  exact List.filter_congr fun x hx => by
    by_cases hk : x.key = t.key
    · simp [hk, hPfin x hx hk]
    · simp [hk]

/-- Appending `t` itself to the finished set appends it to the same-key
finished sub-sequence at its position. -/
theorem filter_fin_succ {sub P S fin : List Transaction} {t : Transaction}
    (hnd : sub.Nodup) (hdec : sub = P ++ t :: S)
    (hPfin : ∀ e ∈ P, e.key = t.key → e ∈ fin)
    (hSfin : ∀ e ∈ S, e.key = t.key → e ∉ fin) :
    sub.filter (fun x => decide (x.key = t.key ∧ x ∈ fin ++ [t])) =
      P.filter (fun e => decide (e.key = t.key)) ++ [t] := by
  obtain ⟨htP, htS⟩ := nodup_decomp_facts hnd hdec
  subst hdec
  rw [List.filter_append, List.filter_cons]
  have ht : (decide (t.key = t.key ∧ t ∈ fin ++ [t])) = true := by simp
  rw [ht]
  have hS : S.filter (fun x => decide (x.key = t.key ∧ x ∈ fin ++ [t])) = [] :=
    List.filter_eq_nil_iff.2 fun x hx => by
      have hxt : x ≠ t := fun e => htS (e ▸ hx)
      simp only [decide_eq_true_eq, not_and, List.mem_append, List.mem_singleton]
      rintro hk (hf | rfl)
      · exact hSfin x hx hk hf
      · exact hxt rfl
  rw [hS]
  have hP : P.filter (fun x => decide (x.key = t.key ∧ x ∈ fin ++ [t])) =
      P.filter (fun e => decide (e.key = t.key)) :=
    List.filter_congr fun x hx => by
      by_cases hk : x.key = t.key
      · simp [hk, List.mem_append, hPfin x hx hk]
      · simp [hk]
  rw [hP]
  rfl

/-- The key-order invariant: started transactions follow all their same-key
predecessors' completion (K1), a deferred transaction's dependency set holds
every unfinished same-key predecessor (K2), completion is downward closed per
key (K3), the store is the serial fold of the finished same-key sub-sequence
(K4), and the snapshot of every started or finished transaction is the serial
fold of its same-key prefix (K5). -/
structure KInv (d : DeferredState) : Prop where
  K1 : ∀ tx ∈ strtD d, ∀ P S, subD d = P ++ tx :: S → ∀ e ∈ P, e.key = tx.key → e ∈ finD d
  K2 : ∀ tx ∈ defkD d, ∀ P S, subD d = P ++ tx :: S →
        ∀ e ∈ P, e.key = tx.key → e ∉ finD d → e ∈ depsD d tx
  K3 : ∀ tx ∈ finD d, ∀ P S, subD d = P ++ tx :: S → ∀ e ∈ P, e.key = tx.key → e ∈ finD d
  K4 : ∀ k : Nat, d.base.keys k =
        effFold ((subD d).filter (fun x => decide (x.key = k ∧ x ∈ finD d)))
  K5 : ∀ tx, tx ∈ strtD d ∨ tx ∈ finD d → ∀ P S, subD d = P ++ tx :: S →
        look d.base.keystate tx = some (effFold (P.filter (fun e => decide (e.key = tx.key))))

theorem kinv_init (mdt : ℚ) : KInv (initDeferred mdt) := by
  constructor <;> simp [initDeferred, initBase, subD, strtD, finD, defkD, depsD, dom, effFold]

theorem kinv_setTime {d : DeferredState} (h : KInv d) (now : ℚ) :
    KInv { d with base := { d.base with current_time := now } } :=
  { K1 := h.K1, K2 := h.K2, K3 := h.K3, K4 := h.K4, K5 := h.K5 }

theorem kinv_submit {d : DeferredState} (hW : WInv d) (h : KInv d) {t : Transaction}
    (ht : t ∉ subD d) : KInv (deferredSubmit d t) := by
  have hsub : subD (deferredSubmit d t) = subD d ++ [t] := by
    simp only [deferredSubmit, submitTransaction, subD]
    exact dom_upd_of_not_mem _ ht
  have htS : t ∉ strtD d := fun hs => ht (hW.strtSub t hs)
  have htD : t ∉ defkD d := fun hs => ht (hW.defkSub t hs)
  have htF : t ∉ finD d := fun hs => ht (hW.finSub t hs)
  have hstrt : strtD (deferredSubmit d t) = strtD d := rfl
  have hfin : finD (deferredSubmit d t) = finD d := rfl
  have hdefk : defkD (deferredSubmit d t) = defkD d := rfl
  -- decomposition transfer: an old member decomposes inside the old list
  have htrans : ∀ {tx : Transaction} {P S : List Transaction}, tx ≠ t →
      subD (deferredSubmit d t) = P ++ tx :: S →
      ∃ S', S = S' ++ [t] ∧ subD d = P ++ tx :: S' := by
    intro tx P S hne hdec
    rw [hsub] at hdec
    exact append_singleton_decomp hne hdec
  refine
    { K1 := ?_, K2 := ?_, K3 := ?_, K4 := ?_, K5 := ?_ }
  · intro tx hx P S hdec e he hk
    rw [hstrt] at hx
    have hne : tx ≠ t := fun hc => htS (hc ▸ hx)
    obtain ⟨S', _, hdec'⟩ := htrans hne hdec
    exact h.K1 tx hx P S' hdec' e he hk
  · intro tx hx P S hdec e he hk hf
    rw [hdefk] at hx
    have hne : tx ≠ t := fun hc => htD (hc ▸ hx)
    obtain ⟨S', _, hdec'⟩ := htrans hne hdec
    exact h.K2 tx hx P S' hdec' e he hk hf
  · intro tx hx P S hdec e he hk
    rw [hfin] at hx
    have hne : tx ≠ t := fun hc => htF (hc ▸ hx)
    obtain ⟨S', _, hdec'⟩ := htrans hne hdec
    exact h.K3 tx hx P S' hdec' e he hk
  · intro k
    have hkeys : (deferredSubmit d t).base.keys = d.base.keys := rfl
    rw [hkeys, hsub, List.filter_append, h.K4 k]
    have : [t].filter (fun x => decide (x.key = k ∧ x ∈ finD (deferredSubmit d t))) = [] := by
      simp only [List.filter_cons, List.filter_nil]
      have : (decide (t.key = k ∧ t ∈ finD (deferredSubmit d t))) = false := by
        rw [hfin]
        simp [htF]
      rw [this]
      simp
    rw [this, List.append_nil]
    have heq : (subD d).filter (fun x => decide (x.key = k ∧ x ∈ finD (deferredSubmit d t))) =
        (subD d).filter (fun x => decide (x.key = k ∧ x ∈ finD d)) :=
      List.filter_congr fun x hx => by
        by_cases hk : x.key = k
        · simp only [hk, true_and, hfin]
        · simp [hk]
    rw [heq]
  · intro tx hx P S hdec
    rw [hstrt, hfin] at hx
    have hne : tx ≠ t := fun hc => (hc ▸ hx).elim htS htF
    obtain ⟨S', _, hdec'⟩ := htrans hne hdec
    have hks : (deferredSubmit d t).base.keystate = d.base.keystate := rfl
    rw [hks]
    exact h.K5 tx hx P S' hdec'

/-- Per-key downward closure (K3) forbids a finished transaction after an
unfinished one. -/
theorem succ_not_fin {d : DeferredState} (hK : KInv d) {t : Transaction}
    (htf : t ∉ finD d) {P S : List Transaction} (hdec : subD d = P ++ t :: S) :
    ∀ e ∈ S, e.key = t.key → e ∉ finD d := by
  intro e heS hkey hef
  obtain ⟨S1, S2, hS⟩ := mem_split_decomp heS
  have hdec2 : subD d = (P ++ t :: S1) ++ e :: S2 := by
    rw [hdec, hS]
    simp
  exact htf (hK.K3 e hef _ _ hdec2 t
    (List.mem_append_right _ (List.mem_cons_self t S1)) hkey.symm)

/-- When the head of pending is considered, every unfinished same-key
predecessor is in the conflict union: it cannot still be pending (the
pending list is a sublist of submission order, so predecessors were already
consumed), hence it is started or deferred, and both are collected without
regard to submit order. -/
theorem pred_unfin_in_conflict {d : DeferredState} (hW : WInv d) {t : Transaction}
    {rest : List Transaction} (hp : pendD d = t :: rest) :
    ∀ P S, subD d = P ++ t :: S → ∀ e ∈ P, e.key = t.key → e ∉ finD d →
      e ∈ conflictSet { d with base := { d.base with pending := remS d.base.pending t } } t := by
  intro P S hdec e heP hkey hef
  have heSub : e ∈ subD d := hdec ▸ List.mem_append_left _ heP
  have hndP := nodup_decomp_facts hW.ndSub hdec
  have het : e ≠ t := fun hc' => hndP.1 (hc' ▸ heP)
  have hkeyb : (decide (e.key = t.key)) = true := by simp [hkey]
  rcases hW.part e heSub with hq | hq | hq | hq
  · -- still pending: impossible, predecessors precede the head in the
    -- pending sublist
    exfalso
    rw [hp] at hq
    rcases List.mem_cons.1 hq with h' | h'
    · exact het h'
    · have hsl : (t :: rest).Sublist (P ++ t :: S) := by
        rw [← hdec, ← hp]
        exact hW.pendSl
      have hrS : rest.Sublist S := sublist_cons_decomp (hdec ▸ hW.ndSub) hsl
      have heS : e ∈ S := hrS.subset h'
      have hnd : (P ++ t :: S).Nodup := hdec ▸ hW.ndSub
      rw [List.nodup_append] at hnd
      exact hnd.2.2 heP (List.mem_cons_of_mem _ heS)
  · -- started
    exact List.mem_append_right _
      (List.mem_filter.2 ⟨hq, hkeyb⟩)
  · -- deferred
    exact List.mem_append_left _
      (List.mem_append_right _ (List.mem_filter.2 ⟨hq, hkeyb⟩))
  · exact absurd hq hef

/-- If the conflict union is empty, every same-key predecessor of the head
is finished. -/
theorem conflict_empty_preds_fin {d : DeferredState} (hW : WInv d) {t : Transaction}
    {rest : List Transaction} (hp : pendD d = t :: rest)
    (hc : conflictSet { d with base := { d.base with pending := remS d.base.pending t } } t = []) :
    ∀ P S, subD d = P ++ t :: S → ∀ e ∈ P, e.key = t.key → e ∈ finD d := by
  intro P S hdec e heP hkey
  by_contra hef
  have := pred_unfin_in_conflict hW hp P S hdec e heP hkey hef
  rw [hc] at this
  exact List.not_mem_nil e this

/-- Starting the head of pending preserves the key-order invariant. -/
theorem kinv_start_step {d : DeferredState} (hW : WInv d) (hK : KInv d) {t : Transaction}
    {rest : List Transaction} (hp : pendD d = t :: rest)
    (hc : conflictSet { d with base := { d.base with pending := remS d.base.pending t } } t = []) :
    KInv { d with base := transactionStart { d.base with pending := remS d.base.pending t } t } := by
  obtain ⟨htSub, htS, htD, htF, htR, hrem⟩ := pend_head_facts hW hp
  set dS : DeferredState :=
    { d with base := transactionStart { d.base with pending := remS d.base.pending t } t } with hdS
  have hsub : subD dS = subD d := rfl
  have hfin : finD dS = finD d := rfl
  have hdefk : defkD dS = defkD d := rfl
  have hkeys : dS.base.keys = d.base.keys := rfl
  have hstrt : strtD dS = strtD d ++ [t] := by
    simpa [strtD, transactionStart] using insS_of_not_mem htS
  have hks : dS.base.keystate = upd d.base.keystate t (d.base.keys t.key) := rfl
  refine { K1 := ?_, K2 := ?_, K3 := ?_, K4 := ?_, K5 := ?_ }
  · rw [hstrt, hsub, hfin]
    intro tx hx P S hdec e he hk
    rcases List.mem_append.1 hx with hx | hx
    · exact hK.K1 tx hx P S hdec e he hk
    · simp only [List.mem_singleton] at hx
      subst hx
      exact conflict_empty_preds_fin hW hp hc P S hdec e he hk
  · rw [hdefk, hsub, hfin]
    intro tx hx P S hdec e he hk hf
    exact hK.K2 tx hx P S hdec e he hk hf
  · rw [hfin, hsub]
    exact hK.K3
  · rw [hkeys, hsub, hfin]
    exact hK.K4
  · rw [hstrt, hfin, hsub, hks]
    intro tx hx P S hdec
    by_cases hxt : tx = t
    · subst hxt
      rw [look_upd_self]
      have hPfin : ∀ e ∈ P, e.key = tx.key → e ∈ finD d :=
        conflict_empty_preds_fin hW hp hc P S hdec
      have hSfin : ∀ e ∈ S, e.key = tx.key → e ∉ finD d :=
        succ_not_fin hK htF hdec
      have := hK.K4 tx.key
      rw [filter_fin_eq_preds hdec hPfin htF hSfin] at this
      rw [this]
    · have hx' : tx ∈ strtD d ∨ tx ∈ finD d := by
        rcases hx with hx | hx
        · rcases List.mem_append.1 hx with hx | hx
          · exact Or.inl hx
          · simp only [List.mem_singleton] at hx
            exact absurd hx hxt
        · exact Or.inr hx
      rw [look_upd_ne _ _ hxt]
      exact hK.K5 tx hx' P S hdec

/-- Deferring the head of pending preserves the key-order invariant: the
recorded dependency set holds every unfinished same-key predecessor. -/
theorem kinv_defer_step {d : DeferredState} (hW : WInv d) (hK : KInv d) {t : Transaction}
    {rest : List Transaction} (hp : pendD d = t :: rest)
    (hc : conflictSet { d with base := { d.base with pending := remS d.base.pending t } } t ≠ []) :
    KInv (transactionDefer { d with base := { d.base with pending := remS d.base.pending t } } t).2 := by
  obtain ⟨htSub, htS, htD, htF, htR, hrem⟩ := pend_head_facts hW hp
  set d0 : DeferredState := { d with base := { d.base with pending := remS d.base.pending t } } with hd0
  set C : List Transaction := conflictSet d0 t with hC
  rw [transactionDefer_of_ne hc]
  set d' : DeferredState :=
    { d0 with
      deferred_at := upd d0.deferred_at t d0.base.current_time
      depends_on := upd d0.depends_on t C
      depended_by := C.foldl (fun m o => upd m o (insS (lookD m o []) t)) d0.depended_by } with hd'
  have hsub : subD d' = subD d := rfl
  have hfin : finD d' = finD d := rfl
  have hstrt : strtD d' = strtD d := rfl
  have hkeys : d'.base.keys = d.base.keys := rfl
  have hksd : d'.base.keystate = d.base.keystate := rfl
  have hdefk : defkD d' = defkD d ++ [t] := by
    show dom (upd d.depends_on t C) = defkD d ++ [t]
    exact dom_upd_of_not_mem _ htD
  have hdeps_t : depsD d' t = C := by
    show lookD (upd d.depends_on t C) t [] = C
    simp [lookD]
  have hdeps_ne : ∀ {x : Transaction}, x ≠ t → depsD d' x = depsD d x := by
    intro x hx
    show lookD (upd d.depends_on t C) x [] = lookD d.depends_on x []
    simp [lookD, look_upd_ne _ _ hx]
  refine { K1 := ?_, K2 := ?_, K3 := ?_, K4 := ?_, K5 := ?_ }
  · rw [hstrt, hsub, hfin]
    exact hK.K1
  · rw [hdefk, hsub, hfin]
    intro tx hx P S hdec e he hk hf
    rcases List.mem_append.1 hx with hx | hx
    · have hxt : tx ≠ t := fun hc' => htD (hc' ▸ hx)
      rw [hdeps_ne hxt]
      exact hK.K2 tx hx P S hdec e he hk hf
    · simp only [List.mem_singleton] at hx
      subst hx
      rw [hdeps_t]
      exact pred_unfin_in_conflict hW hp P S hdec e he hk hf
  · rw [hfin, hsub]
    exact hK.K3
  · rw [hkeys, hsub, hfin]
    exact hK.K4
  · rw [hstrt, hfin, hsub, hksd]
    exact hK.K5

/-- Both loops of a tick preserve the key-order invariant (first loop). -/
theorem sinv_phase1Go :
    ∀ (l : List Transaction) (d : DeferredState), WInv d → KInv d → pendD d = l →
      KInv (phase1Go d l).1 := by
  intro l
  induction l with
  | nil =>
    intro d _ hK _
    exact hK
  | cons t rest ih =>
    intro d hW hK hp
    by_cases hc : conflictSet { d with base := { d.base with pending := remS d.base.pending t } } t = []
    · rw [phase1Go_cons_start rest hc]
      obtain ⟨hW', hp'⟩ := winv_start_step hW hp
      exact ih _ hW' (kinv_start_step hW hK hp hc) hp'
    · rw [phase1Go_cons_defer rest hc]
      obtain ⟨hW', hp'⟩ := winv_defer_step hW hp hc
      exact ih _ hW' (kinv_defer_step hW hK hp hc) hp'

theorem p2Pre_no_trigger {d : DeferredState} (hmdt : d.max_defer_time ≤ 0)
    (t : Transaction) : p2Pre d t = d := by
  unfold p2Pre p2Trigger
  have : ¬ (d.max_defer_time > 0 ∧
      d.base.current_time - lookD d.deferred_at t 0 > d.max_defer_time) := by
    rintro ⟨h1, _⟩
    exact absurd hmdt (not_le.2 h1)
  simp [this]

/-- Releasing a deferred transaction whose dependencies have all finished
preserves the key-order invariant. -/
theorem kinv_p2_start_step {d : DeferredState} (hK : KInv d) {t : Transaction}
    (htD : t ∈ defkD d) (hdeps : depsD d t = []) (htS : t ∉ strtD d) (htF : t ∉ finD d) :
    KInv { d with base := transactionStart d.base t } := by
  have hPfin : ∀ P S, subD d = P ++ t :: S → ∀ e ∈ P, e.key = t.key → e ∈ finD d := by
    intro P S hdec e he hk
    by_contra hef
    have := hK.K2 t htD P S hdec e he hk hef
    rw [hdeps] at this
    exact List.not_mem_nil e this
  set dS : DeferredState := { d with base := transactionStart d.base t } with hdS
  have hsub : subD dS = subD d := rfl
  have hfin : finD dS = finD d := rfl
  have hdefk : defkD dS = defkD d := rfl
  have hkeys : dS.base.keys = d.base.keys := rfl
  have hstrt : strtD dS = strtD d ++ [t] := by
    simpa [strtD, transactionStart] using insS_of_not_mem htS
  have hks : dS.base.keystate = upd d.base.keystate t (d.base.keys t.key) := rfl
  refine { K1 := ?_, K2 := ?_, K3 := ?_, K4 := ?_, K5 := ?_ }
  · rw [hstrt, hsub, hfin]
    intro tx hx P S hdec e he hk
    rcases List.mem_append.1 hx with hx | hx
    · exact hK.K1 tx hx P S hdec e he hk
    · simp only [List.mem_singleton] at hx
      subst hx
      exact hPfin P S hdec e he hk
  · rw [hdefk, hsub, hfin]
    intro tx hx P S hdec e he hk hf
    exact hK.K2 tx hx P S hdec e he hk hf
  · rw [hfin, hsub]
    exact hK.K3
  · rw [hkeys, hsub, hfin]
    exact hK.K4
  · rw [hstrt, hfin, hsub, hks]
    intro tx hx P S hdec
    by_cases hxt : tx = t
    · subst hxt
      rw [look_upd_self]
      have hSfin : ∀ e ∈ S, e.key = tx.key → e ∉ finD d :=
        succ_not_fin hK htF hdec
      have := hK.K4 tx.key
      rw [filter_fin_eq_preds hdec (hPfin P S hdec) htF hSfin] at this
      rw [this]
    · have hx' : tx ∈ strtD d ∨ tx ∈ finD d := by
        rcases hx with hx | hx
        · rcases List.mem_append.1 hx with hx | hx
          · exact Or.inl hx
          · simp only [List.mem_singleton] at hx
            exact absurd hx hxt
        · exact Or.inr hx
      rw [look_upd_ne _ _ hxt]
      exact hK.K5 tx hx' P S hdec

/-- The second loop preserves the key-order invariant when the latency bound
is disabled (no forced release can fire). -/
theorem sinv_phase2Go :
    ∀ (l : List Transaction) (d : DeferredState) (ev : List Transaction),
      d.max_defer_time ≤ 0 → P2Inv d ev → KInv d → (ev ++ l).Nodup →
      (∀ x ∈ l, x ∈ defkD d) → KInv (phase2Go d l).1 := by
  intro l
  induction l with
  | nil =>
    intro d ev _ _ hK _ _
    exact hK
  | cons t rest ih =>
    intro d ev hmdt h hK hnd hl
    have htE : t ∉ ev := by
      intro hte
      have := List.disjoint_of_nodup_append hnd hte
      exact this (List.mem_cons_self t rest)
    have htD : t ∈ defkD d := hl t (List.mem_cons_self t rest)
    rw [phase2Go_cons, p2Pre_no_trigger hmdt]
    by_cases hdem : lookD d.depends_on t [] = []
    · rw [if_pos hdem]
      have htS : t ∉ strtD d := fun hs => htE (h.dSD t hs htD)
      have htF : t ∉ finD d := h.dDF t htD
      have hK2 : KInv { d with base := transactionStart d.base t } :=
        kinv_p2_start_step hK htD hdem htS htF
      have h2 : P2Inv { d with base := transactionStart d.base t } (ev ++ [t]) :=
        p2inv_start_step h htD htE hdem
      have hnd2 : ((ev ++ [t]) ++ rest).Nodup := by
        rwa [List.append_assoc, List.singleton_append]
      have hl2 : ∀ x ∈ rest, x ∈ defkD { d with base := transactionStart d.base t } := by
        intro x hx
        exact hl x (List.mem_cons_of_mem _ hx)
      exact ih _ (ev ++ [t]) hmdt h2 hK2 hnd2 hl2
    · rw [if_neg hdem]
      have hnd2 : (ev ++ rest).Nodup :=
        ((List.sublist_cons_self t rest).append_left ev).nodup hnd
      exact ih _ ev hmdt h hK hnd2 (fun x hx => hl x (List.mem_cons_of_mem _ hx))

/-- Deleting a `_depends_on` key preserves the key-order invariant. -/
theorem kinv_delete_step {d : DeferredState} (hK : KInv d) (e : Transaction) :
    KInv { d with depends_on := delA d.depends_on e } := by
  set d1 : DeferredState := { d with depends_on := delA d.depends_on e } with hd1
  have hdefk1 : ∀ x : Transaction, x ∈ defkD d1 ↔ x ∈ defkD d ∧ x ≠ e := fun x => mem_dom_delA
  have hdeps1 : ∀ {x : Transaction}, x ≠ e → depsD d1 x = depsD d x := by
    intro x hx
    show lookD (delA d.depends_on e) x [] = _
    simp [lookD, depsD, look_delA_ne _ hx]
  exact
    { K1 := hK.K1
      K2 := by
        intro tx hx P S hdec f hf hk hff
        obtain ⟨hx', hxe⟩ := (hdefk1 tx).1 hx
        rw [hdeps1 hxe]
        exact hK.K2 tx hx' P S hdec f hf hk hff
      K3 := hK.K3
      K4 := hK.K4
      K5 := hK.K5 }

theorem kinv_delete :
    ∀ (ev : List Transaction) (d : DeferredState), KInv d →
      KInv { d with depends_on := ev.foldl delA d.depends_on } := by
  intro ev
  induction ev with
  | nil =>
    intro d hK
    exact hK
  | cons e rest ih =>
    intro d hK
    have hfold : { d with depends_on := (e :: rest).foldl delA d.depends_on } =
        { { d with depends_on := delA d.depends_on e } with
          depends_on := rest.foldl delA (delA d.depends_on e) } := rfl
    rw [hfold]
    exact ih _ (kinv_delete_step hK e)

/-! ### Per-type effect lemmas for `_transaction_finish` -/

theorem finish_keys_get {s : BaseState} {t : Transaction} (h : t.type = TransactionType.GET) :
    (transactionFinish s t).keys = s.keys := by
  simp [transactionFinish, h]

theorem finish_keys_overwrite {s : BaseState} {t : Transaction}
    (h : t.type = TransactionType.OVERWRITE) :
    (transactionFinish s t).keys = fun k => if k = t.key then 0 else s.keys k := by
  simp [transactionFinish, h]

theorem finish_keys_increase {s : BaseState} {t : Transaction}
    (h : t.type = TransactionType.INCREASE) :
    (transactionFinish s t).keys = fun k =>
      if k = t.key then lookD s.keystate t 0 + 1 else s.keys k := by
  simp [transactionFinish, h]

theorem finish_keystate_get {s : BaseState} {t : Transaction}
    (h : t.type = TransactionType.GET) :
    (transactionFinish s t).keystate = upd s.keystate t (s.keys t.key) := by
  simp [transactionFinish, h]

theorem finish_keystate_nonget {s : BaseState} {t : Transaction}
    (h : t.type ≠ TransactionType.GET) :
    (transactionFinish s t).keystate = s.keystate := by
  cases ht : t.type with
  | GET => exact absurd ht h
  | OVERWRITE => simp [transactionFinish, ht]
  | INCREASE => simp [transactionFinish, ht]

/-- Finishing a started transaction preserves the key-order invariant: the
store picks up exactly one more per-key effect, applied to the serial fold of
the transaction's same-key prefix. -/
theorem kinv_finish_step {d : DeferredState} (hW : WInv d) (hK : KInv d) {t : Transaction}
    (ht : t ∈ strtD d) : KInv (deferredFinish d t) := by
  have htF : t ∉ finD d := hW.dSF t ht
  have htSub : t ∈ subD d := hW.strtSub t ht
  obtain ⟨P0, S0, hdec0⟩ := mem_split_decomp htSub
  have hnd0 : (P0 ++ t :: S0).Nodup := hdec0 ▸ hW.ndSub
  have hPfin0 : ∀ e ∈ P0, e.key = t.key → e ∈ finD d := hK.K1 t ht P0 S0 hdec0
  have hSfin0 : ∀ e ∈ S0, e.key = t.key → e ∉ finD d := succ_not_fin hK htF hdec0
  have hfold_old : (subD d).filter (fun x => decide (x.key = t.key ∧ x ∈ finD d)) =
      P0.filter (fun e => decide (e.key = t.key)) :=
    filter_fin_eq_preds hdec0 hPfin0 htF hSfin0
  have hfilter_new : (subD d).filter (fun x => decide (x.key = t.key ∧ x ∈ finD d ++ [t])) =
      P0.filter (fun e => decide (e.key = t.key)) ++ [t] :=
    filter_fin_succ hW.ndSub hdec0 hPfin0 hSfin0
  set d' : DeferredState := deferredFinish d t with hd'
  have hsub : subD d' = subD d := by
    show dom (transactionFinish d.base t).submitted_at = _
    rw [finish_submitted_at]
    rfl
  have hstrt : strtD d' = remS (strtD d) t := by
    show (transactionFinish d.base t).started = _
    rw [finish_started]
    rfl
  have hfin : finD d' = finD d ++ [t] := by
    show dom (transactionFinish d.base t).finished_at = _
    rw [finish_finished_at]
    exact dom_upd_of_not_mem _ htF
  have hdefk : defkD d' = defkD d := by
    show dom (cutDeps (lookD d.depended_by t []) d.depends_on t) = _
    exact cut_defkD (fun w hw => (hW.rev t w hw).1)
  have hdeps : ∀ w : Transaction, depsD d' w =
      if w ∈ dbyD d t then remS (depsD d w) t else depsD d w := by
    intro w
    show lookD (cutDeps (lookD d.depended_by t []) d.depends_on t) w [] = _
    exact cut_depsD d t w
  have hK5t : look d.base.keystate t =
      some (effFold (P0.filter (fun e => decide (e.key = t.key)))) :=
    hK.K5 t (Or.inl ht) P0 S0 hdec0
  have hbase : d'.base = transactionFinish d.base t := rfl
  refine { K1 := ?_, K2 := ?_, K3 := ?_, K4 := ?_, K5 := ?_ }
  · rw [hstrt, hsub, hfin]
    intro tx hx P S hdec e he hk
    exact List.mem_append_left _ (hK.K1 tx (mem_remS.1 hx).1 P S hdec e he hk)
  · rw [hdefk, hsub, hfin]
    intro tx hx P S hdec e he hk hf
    have hf' : e ∉ finD d := fun h' => hf (List.mem_append_left _ h')
    have het : e ≠ t := by
      intro h'
      exact hf (by rw [h']; exact List.mem_append_right _ (List.mem_singleton_self t))
    have hmem := hK.K2 tx hx P S hdec e he hk hf'
    rw [hdeps tx]
    by_cases hb : tx ∈ dbyD d t
    · rw [if_pos hb]
      exact mem_remS.2 ⟨hmem, het⟩
    · rwa [if_neg hb]
  · rw [hfin, hsub]
    intro tx hx P S hdec e he hk
    rcases List.mem_append.1 hx with hx | hx
    · exact List.mem_append_left _ (hK.K3 tx hx P S hdec e he hk)
    · simp only [List.mem_singleton] at hx
      subst hx
      obtain ⟨hP, _⟩ := decomp_unique (hdec0 ▸ hW.ndSub) (hdec0.symm.trans hdec)
      subst hP
      exact List.mem_append_left _ (hPfin0 e he hk)
  · rw [hsub, hfin]
    intro k
    by_cases hkk : k = t.key
    · subst hkk
      rw [hfilter_new, effFold_append]
      cases htype : t.type with
      | GET =>
        rw [hbase, finish_keys_get htype]
        rw [hK.K4 t.key, hfold_old]
        rfl
      | OVERWRITE =>
        rw [hbase, finish_keys_overwrite htype]
        simp [effStep]
      | INCREASE =>
        rw [hbase, finish_keys_increase htype]
        simp only [if_pos rfl]
        show lookD d.base.keystate t 0 + 1 = _
        rw [lookD, hK5t]
        rfl
    · have hkne : d'.base.keys k = d.base.keys k := by
        rw [hbase]
        exact finish_keys_of_ne d.base (fun h' => hkk h')
      rw [hkne, hK.K4 k]
      congr 1
      exact List.filter_congr fun x hx => by
        by_cases hk2 : x.key = k
        · have hxt : x ≠ t := fun h' => hkk (by rw [← h']; exact hk2.symm)
          simp [hk2, List.mem_append, hxt]
        · simp [hk2]
  · rw [hstrt, hfin, hsub]
    intro tx hx P S hdec
    by_cases hxt : tx = t
    · subst hxt
      obtain ⟨hP, _⟩ := decomp_unique (hdec0 ▸ hW.ndSub) (hdec0.symm.trans hdec)
      subst hP
      cases htype : tx.type with
      | GET =>
        rw [hbase, finish_keystate_get htype, look_upd_self, hK.K4 tx.key, hfold_old]
      | OVERWRITE =>
        rw [hbase, finish_keystate_nonget (by rw [htype]; intro h; cases h)]
        exact hK5t
      | INCREASE =>
        rw [hbase, finish_keystate_nonget (by rw [htype]; intro h; cases h)]
        exact hK5t
    · have hlook : look d'.base.keystate tx = look d.base.keystate tx := by
        rw [hbase]
        exact finish_keystate_of_ne d.base hxt
      rw [hlook]
      have hx' : tx ∈ strtD d ∨ tx ∈ finD d := by
        rcases hx with hx | hx
        · exact Or.inl (mem_remS.1 hx).1
        · rcases List.mem_append.1 hx with hx | hx
          · exact Or.inr hx
          · simp only [List.mem_singleton] at hx
            exact absurd hx hxt
      exact hK.K5 tx hx' P S hdec

/-- The finish loop preserves the key-order invariant. -/
theorem sinv_finishGo :
    ∀ (l : List Transaction) (d : DeferredState), WInv d → KInv d →
      (∀ x ∈ l, x ∈ strtD d) → l.Nodup → KInv (deferredFinishGo d l) := by
  intro l
  induction l with
  | nil =>
    intro d _ hK _ _
    exact hK
  | cons t rest ih =>
    intro d hW hK hl hnd
    have ht : t ∈ strtD d := hl t (List.mem_cons_self t rest)
    refine ih (deferredFinish d t) (winv_deferredFinish hW ht) (kinv_finish_step hW hK ht)
      ?_ (List.nodup_cons.1 hnd).2
    intro x hx
    have hxs : x ∈ strtD d := hl x (List.mem_cons_of_mem _ hx)
    have hxt : x ≠ t := fun e => (List.nodup_cons.1 hnd).1 (e ▸ hx)
    show x ∈ (transactionFinish d.base t).started
    rw [finish_started]
    exact mem_remS.2 ⟨hxs, hxt⟩

/-! ### Field preservation through a clock call -/

theorem phase1Go_preserve :
    ∀ (l : List Transaction) (d : DeferredState),
      (phase1Go d l).1.base.submitted_at = d.base.submitted_at ∧
      (phase1Go d l).1.max_defer_time = d.max_defer_time := by
  intro l
  induction l with
  | nil => intro d; exact ⟨rfl, rfl⟩
  | cons t rest ih =>
    intro d
    by_cases hc : conflictSet { d with base := { d.base with pending := remS d.base.pending t } } t = []
    · rw [phase1Go_cons_start rest hc]
      exact ih _
    · rw [phase1Go_cons_defer rest hc, transactionDefer_of_ne hc]
      exact ih _

theorem phase2Go_preserve :
    ∀ (l : List Transaction) (d : DeferredState),
      (phase2Go d l).1.base.submitted_at = d.base.submitted_at ∧
      (phase2Go d l).1.max_defer_time = d.max_defer_time := by
  intro l
  induction l with
  | nil => intro d; exact ⟨rfl, rfl⟩
  | cons t rest ih =>
    intro d
    have hpre : (p2Pre d t).base.submitted_at = d.base.submitted_at ∧
        (p2Pre d t).max_defer_time = d.max_defer_time := by
      unfold p2Pre
      by_cases htr : p2Trigger d t = true
      · rw [if_pos htr]
        exact ⟨rfl, rfl⟩
      · rw [if_neg htr]
        exact ⟨rfl, rfl⟩
    rw [phase2Go_cons]
    by_cases hdem : lookD (p2Pre d t).depends_on t [] = []
    · rw [if_pos hdem]
      obtain ⟨ih1, ih2⟩ := ih { p2Pre d t with base := transactionStart (p2Pre d t).base t }
      exact ⟨ih1.trans hpre.1, ih2.trans hpre.2⟩
    · rw [if_neg hdem]
      obtain ⟨ih1, ih2⟩ := ih (p2Pre d t)
      exact ⟨ih1.trans hpre.1, ih2.trans hpre.2⟩

theorem deferredFinishGo_preserve :
    ∀ (l : List Transaction) (d : DeferredState),
      (deferredFinishGo d l).base.submitted_at = d.base.submitted_at ∧
      (deferredFinishGo d l).max_defer_time = d.max_defer_time := by
  intro l
  induction l with
  | nil => intro d; exact ⟨rfl, rfl⟩
  | cons t rest ih =>
    intro d
    obtain ⟨ih1, ih2⟩ := ih (deferredFinish d t)
    constructor
    · rw [show deferredFinishGo d (t :: rest) = deferredFinishGo (deferredFinish d t) rest from rfl,
        ih1]
      show (transactionFinish d.base t).submitted_at = _
      rw [finish_submitted_at]
    · exact ih2

theorem deferredClock_preserve (d : DeferredState) (now : ℚ) :
    subD (deferredClock d now) = subD d ∧
    (deferredClock d now).max_defer_time = d.max_defer_time := by
  set dA : DeferredState := { d with base := { d.base with current_time := now } } with hdA
  set p1 := phase1Go dA (pendD dA) with hp1def
  set p2 := phase2Go p1.1 (defkD p1.1) with hp2def
  set dDel : DeferredState := { p2.1 with depends_on := p2.2.foldl delA p2.1.depends_on } with hdDel
  set due := dDel.base.started.filter (fun t => dueNow dDel.base t) with hdue
  have hEv : deferredClock d now = deferredFinishGo dDel due := rfl
  rw [hEv]
  obtain ⟨hf1, hf2⟩ := deferredFinishGo_preserve due dDel
  obtain ⟨h21, h22⟩ := phase2Go_preserve (defkD p1.1) p1.1
  obtain ⟨h11, h12⟩ := phase1Go_preserve (pendD dA) dA
  constructor
  · show dom (deferredFinishGo dDel due).base.submitted_at = dom d.base.submitted_at
    rw [hf1]
    show dom p2.1.base.submitted_at = _
    rw [h21, h11]
  · rw [hf2]
    show p2.1.max_defer_time = _
    rw [h22, h12]

/-- One clock call preserves both invariants when the latency bound is
disabled. -/
theorem sinv_deferredClock {d : DeferredState} (hW : WInv d) (hK : KInv d)
    (hmdt : d.max_defer_time ≤ 0) (now : ℚ) :
    WInv (deferredClock d now) ∧ KInv (deferredClock d now) := by
  set dA : DeferredState := { d with base := { d.base with current_time := now } } with hdA
  have hAW : WInv dA := winv_setTime hW now
  have hAK : KInv dA := kinv_setTime hK now
  have hAmdt : dA.max_defer_time ≤ 0 := hmdt
  obtain ⟨h1W, hp1, _, _, _⟩ := winv_phase1Go (pendD dA) dA hAW rfl
  have h1K : KInv (phase1Go dA (pendD dA)).1 := sinv_phase1Go (pendD dA) dA hAW hAK rfl
  set p1 := phase1Go dA (pendD dA) with hp1def
  have h1mdt : p1.1.max_defer_time ≤ 0 := by
    rw [(phase1Go_preserve (pendD dA) dA).2]
    exact hAmdt
  obtain ⟨h2P, hnd2, _, hpd2, _⟩ :=
    p2inv_go (defkD p1.1) p1.1 [] h1W (by simpa using h1W.ndDefk) (fun x hx => hx)
  rw [List.nil_append] at h2P hnd2
  have h2K : KInv (phase2Go p1.1 (defkD p1.1)).1 :=
    sinv_phase2Go (defkD p1.1) p1.1 [] h1mdt h1W h1K (by simpa using h1W.ndDefk)
      (fun x hx => hx)
  set p2 := phase2Go p1.1 (defkD p1.1) with hp2def
  set dDel : DeferredState := { p2.1 with depends_on := p2.2.foldl delA p2.1.depends_on } with hdDel
  have hDelW : WInv dDel := p2inv_delete p2.2 p2.1 h2P hnd2
  have hDelK : KInv dDel := kinv_delete p2.2 p2.1 h2K
  set due := dDel.base.started.filter (fun t => dueNow dDel.base t) with hdue
  have hdueS : ∀ x ∈ due, x ∈ strtD dDel := fun x hx => (List.mem_filter.1 hx).1
  have hdueN : due.Nodup := hDelW.ndStrt.filter _
  have hEv : deferredClock d now = deferredFinishGo dDel due := rfl
  rw [hEv]
  exact ⟨winv_finishGo due dDel hDelW hdueS hdueN,
    sinv_finishGo due dDel hDelW hDelK hdueS hdueN⟩

/-! ### The run-level invariant of the deferred policy -/

theorem runD_spec :
    ∀ (ops : List Op) (d : DeferredState), WInv d → KInv d → d.max_defer_time ≤ 0 →
      (subD d ++ submitsOf ops).Nodup →
      WInv (runD d ops) ∧ KInv (runD d ops) ∧
      subD (runD d ops) = subD d ++ submitsOf ops ∧
      (runD d ops).max_defer_time = d.max_defer_time := by
  intro ops
  induction ops with
  | nil =>
    intro d hW hK _ _
    exact ⟨hW, hK, by simp [runD, submitsOf], rfl⟩
  | cons op rest ih =>
    intro d hW hK hmdt hnd
    cases op with
    | clock now =>
      obtain ⟨hW', hK'⟩ := sinv_deferredClock hW hK hmdt now
      obtain ⟨hsub', hmdt'⟩ := deferredClock_preserve d now
      have hnd' : (subD (deferredClock d now) ++ submitsOf rest).Nodup := by
        rw [hsub']
        simpa [submitsOf] using hnd
      obtain ⟨r1, r2, r3, r4⟩ := ih (deferredClock d now) hW' hK' (hmdt' ▸ hmdt) hnd'
      refine ⟨r1, r2, ?_, ?_⟩
      · show subD (runD (deferredClock d now) rest) = _
        rw [r3, hsub']
        simp [submitsOf]
      · show (runD (deferredClock d now) rest).max_defer_time = _
        rw [r4, hmdt']
    | submit tx =>
      have hfresh : tx ∉ subD d := by
        have hdisj := List.disjoint_of_nodup_append (by simpa [submitsOf] using hnd)
        exact fun hmem => hdisj hmem (List.mem_cons_self tx (submitsOf rest))
      obtain ⟨hW', hsub'⟩ := winv_submit hW hfresh
      have hK' : KInv (deferredSubmit d tx) := kinv_submit hW hK hfresh
      have hmdt' : (deferredSubmit d tx).max_defer_time = d.max_defer_time := rfl
      have hnd' : (subD (deferredSubmit d tx) ++ submitsOf rest).Nodup := by
        rw [hsub', List.append_assoc, List.singleton_append]
        simpa [submitsOf] using hnd
      obtain ⟨r1, r2, r3, r4⟩ := ih (deferredSubmit d tx) hW' hK' (hmdt' ▸ hmdt) hnd'
      refine ⟨r1, r2, ?_, ?_⟩
      · show subD (runD (deferredSubmit d tx) rest) = _
        rw [r3, hsub', List.append_assoc, List.singleton_append]
        simp [submitsOf]
      · show (runD (deferredSubmit d tx) rest).max_defer_time = _
        exact r4.trans hmdt'

/-! ## Claim C10: no two same-key transactions execute simultaneously -/

/-- From both invariants: the started set never holds two distinct same-key
transactions (the later one would be a started transaction with an
unfinished same-key predecessor, contradicting K1). -/
theorem no_samekey_overlap {d : DeferredState} (hW : WInv d) (hK : KInv d) :
    ∀ a ∈ strtD d, ∀ b ∈ strtD d, a.key = b.key → a = b := by
  intro a ha b hb hkey
  by_contra hne
  rcases mem_mem_decomp (hW.strtSub a ha) (hW.strtSub b hb) hne with
    ⟨P, S, hdec, hm⟩ | ⟨P, S, hdec, hm⟩
  · exact hW.dSF b hb (hK.K1 a ha P S hdec b hm hkey.symm)
  · exact hW.dSF a ha (hK.K1 b hb P S hdec a hm hkey)

/-- Claim C10: with `max_defer_time ≤ 0` (forced release disabled), at every
point of a run driven by monotone clock calls and duplicate-free
submissions, no two distinct transactions with the same key are
simultaneously members of the started set. -/
theorem deferred_no_samekey_overlap (mdt : ℚ) (hmdt : mdt ≤ 0) (ops : List Op)
    (hnd : (submitsOf ops).Nodup) (hmono : clocksMono 0 ops = true)
    (a b : Transaction) (ha : a ∈ strtD (runD (initDeferred mdt) ops))
    (hb : b ∈ strtD (runD (initDeferred mdt) ops)) (hkey : a.key = b.key) : a = b := by
  obtain ⟨hW, hK, _, _⟩ := runD_spec ops (initDeferred mdt) (winv_init mdt) (kinv_init mdt)
    hmdt (by simpa [initDeferred, initBase, subD, dom] using hnd)
  exact no_samekey_overlap hW hK a ha b hb hkey

/-- Concrete instance of `deferred_no_samekey_overlap`: one INCREASE holding
key 0 while a same-key GET sits deferred. -/
theorem deferred_no_samekey_overlap_witness :
    let w1 : Transaction :=
      { id := 0, type := TransactionType.INCREASE, submit_time := 0, execution_time := 5, key := 0 }
    let w2 : Transaction :=
      { id := 1, type := TransactionType.GET, submit_time := 0, execution_time := 1, key := 0 }
    let ops : List Op := [Op.submit w1, Op.submit w2, Op.clock 1, Op.clock 2]
    (submitsOf ops).Nodup ∧ clocksMono 0 ops = true ∧
    w1 ∈ strtD (runD (initDeferred (-1)) ops) ∧
    w2 ∉ strtD (runD (initDeferred (-1)) ops) ∧
    w1 = w1 := by
  intro w1 w2 ops
  refine ⟨by with_unfolding_all decide, by with_unfolding_all decide,
    by with_unfolding_all decide, by with_unfolding_all decide, ?_⟩
  exact deferred_no_samekey_overlap (-1) (by norm_num) ops
    (by with_unfolding_all decide) (by with_unfolding_all decide) w1 w1
    (by with_unfolding_all decide) (by with_unfolding_all decide) rfl

/-! ## The serial reference policy's invariant -/

theorem refSubmit_submitted (s : RefState) (t : Transaction) :
    (refSubmit s t).submitted_at = upd s.submitted_at t t := by
  cases ht : t.type <;> simp [refSubmit, refFinish, refStart, ht]

theorem refSubmit_finished (s : RefState) (t : Transaction) :
    (refSubmit s t).finished_at = upd s.finished_at t s.current_time := by
  cases ht : t.type <;> simp [refSubmit, refFinish, refStart, ht]

theorem refSubmit_keys_get {s : RefState} {t : Transaction}
    (h : t.type = TransactionType.GET) : (refSubmit s t).keys = s.keys := by
  simp [refSubmit, refFinish, refStart, h]

theorem refSubmit_keys_overwrite {s : RefState} {t : Transaction}
    (h : t.type = TransactionType.OVERWRITE) :
    (refSubmit s t).keys = fun k => if k = t.key then 0 else s.keys k := by
  simp [refSubmit, refFinish, refStart, h]

theorem refSubmit_keys_increase {s : RefState} {t : Transaction}
    (h : t.type = TransactionType.INCREASE) :
    (refSubmit s t).keys = fun k => if k = t.key then s.keys t.key + 1 else s.keys k := by
  simp only [refSubmit, refFinish, refStart, h]
  funext k
  simp [lookD]

theorem refSubmit_keystate_self (s : RefState) (t : Transaction) :
    look (refSubmit s t).keystate t = some (s.keys t.key) := by
  cases ht : t.type <;> simp [refSubmit, refFinish, refStart, ht, lookD]

theorem refSubmit_keystate_ne (s : RefState) {t x : Transaction} (h : x ≠ t) :
    look (refSubmit s t).keystate x = look s.keystate x := by
  cases ht : t.type <;> simp [refSubmit, refFinish, refStart, ht, look_upd_ne _ _ h]

/-- The reference policy's invariant: the store is the serial fold of all
submitted same-key transactions (everything finishes instantly), every
submitted transaction's snapshot is the fold of its same-key prefix, and
finished coincides with submitted. -/
structure RInv (r : RefState) : Prop where
  ndSub : (dom r.submitted_at).Nodup
  K4R : ∀ k : Nat, r.keys k =
        effFold ((dom r.submitted_at).filter (fun x => decide (x.key = k)))
  K5R : ∀ tx ∈ dom r.submitted_at, ∀ P S, dom r.submitted_at = P ++ tx :: S →
        look r.keystate tx = some (effFold (P.filter (fun e => decide (e.key = tx.key))))
  finSub : ∀ tx, tx ∈ dom r.finished_at ↔ tx ∈ dom r.submitted_at

theorem rinv_init : RInv initRef := by
  constructor <;> simp [initRef, dom, effFold]

theorem rinv_clock {r : RefState} (h : RInv r) (now : ℚ) : RInv (refClock r now) :=
  { ndSub := h.ndSub, K4R := h.K4R, K5R := h.K5R, finSub := h.finSub }

theorem rinv_submit {r : RefState} (h : RInv r) {t : Transaction}
    (ht : t ∉ dom r.submitted_at) :
    RInv (refSubmit r t) ∧ dom (refSubmit r t).submitted_at = dom r.submitted_at ++ [t] := by
  have hsub : dom (refSubmit r t).submitted_at = dom r.submitted_at ++ [t] := by
    rw [refSubmit_submitted]
    exact dom_upd_of_not_mem _ ht
  refine ⟨?_, hsub⟩
  refine { ndSub := ?_, K4R := ?_, K5R := ?_, finSub := ?_ }
  · rw [hsub]
    simpa [List.nodup_append] using ⟨h.ndSub, ht⟩
  · intro k
    rw [hsub, List.filter_append]
    by_cases hk : k = t.key
    · subst hk
      have hsingle : [t].filter (fun x => decide (x.key = t.key)) = [t] := by simp
      rw [hsingle, effFold_append]
      cases htype : t.type with
      | GET =>
        rw [refSubmit_keys_get htype, h.K4R t.key]
        rfl
      | OVERWRITE =>
        rw [refSubmit_keys_overwrite htype]
        simp [effStep, htype]
      | INCREASE =>
        rw [refSubmit_keys_increase htype]
        simp only [if_pos rfl]
        rw [h.K4R t.key]
        simp [effStep, htype]
    · have hsingle : [t].filter (fun x => decide (x.key = k)) = [] := by
        simp only [List.filter_cons, List.filter_nil]
        have : (decide (t.key = k)) = false := by
          simp only [decide_eq_false_iff_not]
          exact fun h' => hk h'.symm
        rw [this]
        rfl
      rw [hsingle, List.append_nil]
      have hkeys : (refSubmit r t).keys k = r.keys k := by
        cases htype : t.type with
        | GET => rw [refSubmit_keys_get htype]
        | OVERWRITE =>
          rw [refSubmit_keys_overwrite htype]
          simp [hk]
        | INCREASE =>
          rw [refSubmit_keys_increase htype]
          simp [hk]
      rw [hkeys, h.K4R k]
  · intro tx hx P S hdec
    rw [hsub] at hdec
    by_cases hxt : tx = t
    · subst hxt
      obtain ⟨hP, _⟩ := fresh_append_decomp ht hdec
      subst hP
      rw [refSubmit_keystate_self, h.K4R tx.key]
    · obtain ⟨S', _, hdec'⟩ := append_singleton_decomp hxt hdec
      rw [hsub] at hx
      rcases List.mem_append.1 hx with hx | hx
      · rw [refSubmit_keystate_ne _ hxt]
        exact h.K5R tx hx P S' hdec'
      · simp only [List.mem_singleton] at hx
        exact absurd hx hxt
  · intro tx
    have hfin : (refSubmit r t).finished_at = upd r.finished_at t r.current_time :=
      refSubmit_finished r t
    rw [hfin, hsub]
    constructor
    · intro hx
      rcases (mem_dom_upd _).1 hx with hx | rfl
      · exact List.mem_append_left _ ((h.finSub tx).1 hx)
      · exact List.mem_append_right _ (List.mem_singleton_self tx)
    · intro hx
      rcases List.mem_append.1 hx with hx | hx
      · exact (mem_dom_upd _).2 (Or.inl ((h.finSub tx).2 hx))
      · simp only [List.mem_singleton] at hx
        exact (mem_dom_upd _).2 (Or.inr hx)

theorem runR_spec :
    ∀ (ops : List Op) (r : RefState), RInv r →
      (dom r.submitted_at ++ submitsOf ops).Nodup →
      RInv (runR r ops) ∧
      dom (runR r ops).submitted_at = dom r.submitted_at ++ submitsOf ops := by
  intro ops
  induction ops with
  | nil =>
    intro r h _
    exact ⟨h, by simp [runR, submitsOf]⟩
  | cons op rest ih =>
    intro r h hnd
    cases op with
    | clock now =>
      have hsub : dom (refClock r now).submitted_at = dom r.submitted_at := rfl
      obtain ⟨r1, r2⟩ := ih (refClock r now) (rinv_clock h now)
        (by rw [hsub]; simpa [submitsOf] using hnd)
      refine ⟨r1, ?_⟩
      show dom (runR (refClock r now) rest).submitted_at = _
      rw [r2, hsub]
      simp [submitsOf]
    | submit tx =>
      have hfresh : tx ∉ dom r.submitted_at := by
        have hdisj := List.disjoint_of_nodup_append (by simpa [submitsOf] using hnd)
        exact fun hmem => hdisj hmem (List.mem_cons_self tx (submitsOf rest))
      obtain ⟨h', hsub'⟩ := rinv_submit h hfresh
      obtain ⟨r1, r2⟩ := ih (refSubmit r tx) h'
        (by
          rw [hsub', List.append_assoc, List.singleton_append]
          simpa [submitsOf] using hnd)
      refine ⟨r1, ?_⟩
      show dom (runR (refSubmit r tx) rest).submitted_at = _
      rw [r2, hsub', List.append_assoc, List.singleton_append]
      simp [submitsOf]

/-! ## Claim C1: deferred versus reference

All transactions submitted between two driver ticks carry the same recorded
`_submitted_at` (the clock cursor at submit), so the strict-`<` pending
clause of `_transaction_defer` imposes no order between same-key transactions
of one window: the hash order in which phase 1 scans `set(self._pending)`
alone decides how they serialise, while the reference serialises in
submit-call order.  Under the favourable determinization that scans each
snapshot in submission order the claimed equivalence is provable
(`deferred_matches_reference` below); the claim-C1 theorem at the end of this
section exhibits a legitimate scan order — a permutation of the pending
snapshot — whose run finishes every transaction yet ends with a store
differing from the reference's, so the equivalence is not a property of the
program. -/

/-- A duplicate-free list contained in another of no greater length
exhausts it. -/
theorem subset_full_of_length {l1 l2 : List Transaction} (hsub : ∀ x ∈ l1, x ∈ l2)
    (hnd : l1.Nodup) (hlen : l2.length ≤ l1.length) : ∀ x ∈ l2, x ∈ l1 := by
  intro x hx
  have h1 : l1.toFinset ⊆ l2.toFinset := fun a ha =>
    List.mem_toFinset.2 (hsub a (List.mem_toFinset.1 ha))
  have hc1 : l1.toFinset.card = l1.length := List.toFinset_card_of_nodup hnd
  have hc2 : l2.toFinset.card ≤ l2.length := l2.toFinset_card_le
  have : l2.toFinset.card ≤ l1.toFinset.card := by
    rw [hc1]
    exact hc2.trans hlen
  have heq : l1.toFinset = l2.toFinset := Finset.eq_of_subset_of_card_le h1 this
  exact List.mem_toFinset.1 (heq ▸ List.mem_toFinset.2 hx)

/-- The favourable-order half of the claim-C1 analysis: for the deferred
policy with the latency bound disabled (`max_defer_time ≤ 0`) and each
phase-1 scan taken in submission order (the `runD` determinization), once
every submitted transaction has finished, the final store agrees with the
reference policy on every key, and every finished READ transaction reports
the reference read value.  This holds of that scan order only; see the
claim-C1 theorem below for a scan order under which it fails. -/
theorem deferred_matches_reference (mdt : ℚ) (hmdt : mdt ≤ 0) (ops : List Op)
    (hnd : (submitsOf ops).Nodup)
    (hfin : deferredIsFinished (runD (initDeferred mdt) ops) = true) :
    (∀ k : Nat, (runD (initDeferred mdt) ops).base.keys k = (runR initRef ops).keys k) ∧
    (∀ tx ∈ finD (runD (initDeferred mdt) ops), tx.type = TransactionType.GET →
      get_read_value_for_transaction (runD (initDeferred mdt) ops).base tx =
        refGetReadValue (runR initRef ops) tx) := by
  obtain ⟨hW, hK, hsubD, _⟩ := runD_spec ops (initDeferred mdt) (winv_init mdt) (kinv_init mdt)
    hmdt (by simpa [initDeferred, initBase, subD, dom] using hnd)
  obtain ⟨hR, hsubR⟩ := runR_spec ops initRef rinv_init
    (by simpa [initRef, dom] using hnd)
  set D := runD (initDeferred mdt) ops with hD
  set R := runR initRef ops with hR'
  rw [show subD (initDeferred mdt) = [] from rfl, List.nil_append] at hsubD
  rw [show dom initRef.submitted_at = [] from rfl, List.nil_append] at hsubR
  have hsame : dom R.submitted_at = subD D := by rw [hsubR, hsubD]
  -- all submitted transactions are finished
  have hlen : (subD D).length ≤ (finD D).length := by
    have : D.base.submitted_at.length = D.base.finished_at.length := by
      have := hfin
      unfold deferredIsFinished isFinished at this
      simpa using this
    simp only [subD, finD, dom, List.length_map]
    rw [this]
  have hAllFin : ∀ x ∈ subD D, x ∈ finD D :=
    subset_full_of_length hW.finSub hW.ndFin hlen
  constructor
  · intro k
    rw [hK.K4 k, hR.K4R k, hsame]
    congr 1
    exact List.filter_congr fun x hx => by
      by_cases hk : x.key = k
      · simp [hk, hAllFin x hx]
      · simp [hk]
  · intro tx htx htype
    have htxSub : tx ∈ subD D := hW.finSub tx htx
    obtain ⟨P, S, hdec⟩ := mem_split_decomp htxSub
    have hleft : get_read_value_for_transaction D.base tx =
        some (effFold (P.filter (fun e => decide (e.key = tx.key)))) := by
      unfold get_read_value_for_transaction
      have hs : (look D.base.finished_at tx).isSome := by
        rw [look_isSome_iff_mem_dom]
        exact htx
      rw [if_pos hs]
      exact hK.K5 tx (Or.inr htx) P S hdec
    have hright : refGetReadValue R tx =
        some (effFold (P.filter (fun e => decide (e.key = tx.key)))) := by
      unfold refGetReadValue
      have hmem : tx ∈ dom R.finished_at := (hR.finSub tx).2 (hsame ▸ htxSub)
      have hs : (look R.finished_at tx).isSome := by
        rw [look_isSome_iff_mem_dom]
        exact hmem
      rw [if_pos hs]
      exact hR.K5R tx (hsame ▸ htxSub) P S (by rw [hsame]; exact hdec)
    rw [hleft, hright]

/-- Concrete instance of `deferred_matches_reference`: an INCREASE then a
same-key GET, run to completion with the latency bound disabled. -/
theorem deferred_matches_reference_witness :
    let tx1 : Transaction :=
      { id := 0, type := TransactionType.INCREASE, submit_time := 0, execution_time := 1, key := 0 }
    let tx2 : Transaction :=
      { id := 1, type := TransactionType.GET, submit_time := 0, execution_time := 1, key := 0 }
    let ops : List Op := [Op.submit tx1, Op.submit tx2, Op.clock 1, Op.clock 2, Op.clock 3, Op.clock 4]
    (submitsOf ops).Nodup ∧
    deferredIsFinished (runD (initDeferred (-1)) ops) = true ∧
    (runD (initDeferred (-1)) ops).base.keys 0 = (runR initRef ops).keys 0 ∧
    get_read_value_for_transaction (runD (initDeferred (-1)) ops).base tx2 =
      refGetReadValue (runR initRef ops) tx2 := by
  intro tx1 tx2 ops
  have h1 : (submitsOf ops).Nodup := by with_unfolding_all decide
  have h2 : deferredIsFinished (runD (initDeferred (-1)) ops) = true := by
    with_unfolding_all decide
  refine ⟨h1, h2, ?_, ?_⟩
  · exact (deferred_matches_reference (-1) (by norm_num) ops h1 h2).1 0
  · exact (deferred_matches_reference (-1) (by norm_num) ops h1 h2).2 tx2
      (by with_unfolding_all decide) rfl

/-- Claim C1 fails on the code: `DeferredPartition._start_transactions`
iterates `set(self._pending)` in CPython hash order, and with equal recorded
`_submitted_at` the strict-`<` pending clause of `_transaction_defer` leaves
same-key transactions unordered, so the scan order alone decides their
serialisation.  With `txA` an OVERWRITE and `txB` an INCREASE on key 0
submitted in the same driver window, scanning the permutation `[txB, txA]` of
the pending snapshot `[txA, txB]` starts the INCREASE first; the OVERWRITE
defers behind it and runs second, so after every transaction has finished the
store holds `0` where the reference policy — serialising in submit order —
holds `1`.  Every later pending snapshot is empty and at most one transaction
becomes due per tick, so no other iteration-order choice is involved: the run
satisfies the claim's precondition yet refutes the claimed store equality
(and with it the read-value agreement a same-key READ would see). -/
theorem deferred_set_order_breaks_reference_equality :
    let txA : Transaction :=
      { id := 0, type := TransactionType.OVERWRITE, submit_time := 0, execution_time := 1, key := 0 }
    let txB : Transaction :=
      { id := 1, type := TransactionType.INCREASE, submit_time := 0, execution_time := 1, key := 0 }
    let d2 := deferredSubmit (deferredSubmit (initDeferred 0) txA) txB
    let d3 := deferredClockOrd [txB, txA] d2 1
    let d4 := deferredClockOrd [] d3 2
    let d5 := deferredClockOrd [] d4 3
    let d6 := deferredClockOrd [] d5 4
    let r := runR initRef
      [Op.submit txA, Op.submit txB, Op.clock 1, Op.clock 2, Op.clock 3, Op.clock 4]
    d2.base.pending = [txA, txB] ∧ List.Perm [txB, txA] d2.base.pending ∧
    d3.base.pending = [] ∧ d4.base.pending = [] ∧ d5.base.pending = [] ∧
    deferredIsFinished d6 = true ∧
    d6.base.keys 0 = 0 ∧ r.keys 0 = 1 := by
  with_unfolding_all decide

/-! ## Claim C6: partition routing uses floor division, not mod -/

/-- Claim C6 fails on the code: the driver routes with
`partitions[transaction.key // len(partitions)]`.  For key 5 and 2 partitions
this floor division yields index 2, which is not a valid index for a
2-partition list (whereas `5 mod 2 = 1` would be valid). -/
theorem routing_by_floor_div_out_of_range :
    partitionIndexFor 5 2 = 2 ∧ ¬ partitionIndexFor 5 2 < 2 ∧ 5 % 2 < 2 := by
  decide

end SCCS
